import Mathlib

/-!
# Verification of the azure-refcheck reference-validation engine

Shallow embedding of the core of `azure-refcheck` (an Azure Pipelines
cross-repository reference validator) and proofs about it.

The embedding follows the TypeScript sources:

* `src/validators/parsers.ts` — `parseVersionReference`,
  `extractRepositoryDeclarations` (abstracted as an oracle, see `Env`),
  `extractReferencesFromPatterns` (abstracted as an oracle).
* `src/validators/references.ts` — `extractReferences`,
  `collectAllReferences`, `discoverRepositoryAliases`.
* `src/validators/validation.ts` — `validateExternalReference`,
  `validateLocalReference`, `validateReference`, `validatePipelines`.
* `src/validators/utils.ts` — `findRepoConfig`.

Modelling conventions:

* JavaScript strings are modelled by Lean `String`; the JS operations
  `startsWith`, `substring(n)` and character tests are modelled at the
  character-list level (`jsStartsWith`, `jsDrop`), which coincides with
  the code-unit semantics of the source on the data of interest.
* Optional TS fields become `Option`; JS truthiness of an optional
  string (`undefined` and `""` are falsy) is `truthy`.
* JS `Map` objects are modelled as association lists with the exact
  `Map.set` semantics (overwrite in place, append when fresh); JS `Set`
  objects as duplicate-free lists in insertion order.
* All I/O (file discovery, file reading, YAML parsing, filesystem and
  git queries) is abstracted into an explicit environment `Env`.
  Operations that can throw in JS return `Except String`; operations
  whose source catches internally and returns a default are total.
* JS exceptions are modelled by `Except.error`; a TS `try`/`catch`
  block becomes a `match` on the `Except` value.
-/

deriving instance DecidableEq for Except

namespace AzureRefcheck

/-- Version kinds, `"tag" | "branch" | "commit"` in the source. -/
inductive VersionType where
  | tag
  | branch
  | commit
deriving DecidableEq, Repr

/-- `RepoConfig` from `src/config/types.ts`: a repository configuration.
`aliases` and `ref` are optional in TS; a missing `aliases` behaves as `[]`
and a missing `ref` as a falsy value, which is how they are modelled. -/
structure RepoConfig where
  name : String
  path : String
  aliases : List String := []
  ref : Option String := none
  skipValidation : Bool := false
deriving DecidableEq, Repr

/-- `PipelineReference` from `src/validators/types.ts`. -/
structure PipelineReference where
  source : String
  target : String
  targetRepo : Option String := none
  targetVersion : Option String := none
  versionType : Option VersionType := none
  lineNumber : Nat
  context : String
deriving DecidableEq, Repr

/-- `ReferenceValidationResult` from `src/validators/types.ts`. -/
inductive ReferenceValidationResult where
  | VALID
  | BROKEN_PATH
  | MISSING_REPO
  | INVALID_VERSION
deriving DecidableEq, Repr

/-- `ValidationResult` from `src/validators/types.ts`. -/
structure ValidationResult where
  isValid : Bool
  brokenReferences : List PipelineReference
  validReferences : List PipelineReference
  versionIssues : List PipelineReference
deriving DecidableEq, Repr

/-! ## JS string primitives -/

/-- JS `a.startsWith(b)`: `b` is a prefix of `a` (code-unit semantics,
modelled on the character list). -/
def jsStartsWith (s p : String) : Bool :=
  p.data.isPrefixOf s.data

/-- JS `s.substring(n)` for `0 ≤ n`: drop the first `n` code units. -/
def jsDrop (s : String) (n : Nat) : String :=
  ⟨s.data.drop n⟩

/-- JS truthiness of an optional string: `undefined` and `""` are falsy. -/
def truthy : Option String → Bool
  | none => false
  | some s => s ≠ ""

/-- A hexadecimal digit as matched by `/[0-9a-f]/i`. -/
def isHexChar (c : Char) : Bool :=
  c.isDigit || (('a' ≤ c && c ≤ 'f') || ('A' ≤ c && c ≤ 'F'))

/-- JS `version.match(/^[0-9a-f]{40}$/i)`: an exact 40-hex-character string. -/
def isCommitHash (s : String) : Bool :=
  s.data.length == 40 && s.data.all isHexChar

/-- JS `version.startsWith("v") && version.match(/^v\d/)`: a leading `v`
followed by a decimal digit (`parsers.ts` / `validation.ts` tag shape). -/
def isTagShape (s : String) : Bool :=
  jsStartsWith s "v" &&
    match s.data with
    | _ :: d :: _ => d.isDigit
    | _ => false

/-- JS `s.split(sep)` at the character level: structural recursion, so it
evaluates inside the kernel. Empty segments are kept, and the result is
never empty, matching `String.prototype.split`. -/
def splitOnChar (sep : Char) : List Char → List (List Char)
  | [] => [[]]
  | c :: rest =>
    match splitOnChar sep rest with
    | seg :: segs =>
      if c == sep then [] :: seg :: segs
      else (c :: seg) :: segs
    | [] => if c == sep then [[], []] else [[c]]

/-- JS `s.split("/").pop()!`: the last segment of a slash-split. -/
def jsSplitSlashLast (s : String) : String :=
  ⟨(splitOnChar '/' s.data).getLastD []⟩

/-! ## JS `Map` and `Set` models -/

/-- JS `Map.has`. -/
def jsMapHas {α : Type} (m : List (String × α)) (k : String) : Bool :=
  m.any (fun p => p.1 == k)

/-- JS `Map.set`: overwrite in place when the key exists, append otherwise. -/
def jsMapSet {α : Type} (m : List (String × α)) (k : String) (v : α) :
    List (String × α) :=
  if jsMapHas m k then m.map (fun p => if p.1 == k then (k, v) else p)
  else m ++ [(k, v)]

/-- JS `Map.get` (`undefined` becomes `none`). -/
def jsMapGet {α : Type} (m : List (String × α)) (k : String) : Option α :=
  (m.find? (fun p => p.1 == k)).map (·.2)

/-- JS `Set.add`: append when absent (insertion-order model of a JS `Set`). -/
def setAdd (s : List String) (x : String) : List String :=
  if x ∈ s then s else s ++ [x]

/-- JS `new Set(list)`: the duplicate-free list of elements in first
occurrence order. -/
def setOfList (l : List String) : List String :=
  l.foldl setAdd []

/-! ## `parsers.ts` -/

/-- Result of `parseVersionReference`. -/
structure VersionInfo where
  version : String
  versionType : VersionType
deriving DecidableEq, Repr

/-- `parseVersionReference` from `src/validators/parsers.ts`: classify a raw
ref string into a version and a kind. -/
def parseVersionReference (ref : String) : VersionInfo :=
  if jsStartsWith ref "refs/tags/" then
    { version := jsDrop ref ("refs/tags/".data.length), versionType := .tag }
  else if jsStartsWith ref "refs/heads/" then
    { version := jsDrop ref ("refs/heads/".data.length), versionType := .branch }
  else if isCommitHash ref then
    { version := ref, versionType := .commit }
  else
    { version := ref, versionType := .branch }

/-- Result of `extractRepositoryDeclarations` (`parsers.ts`): `repos` is the
alias → canonical-name record (association list in insertion order, unique
keys) and `repoVersions` the alias → parsed-version record. -/
structure DeclResult where
  repos : List (String × String)
  repoVersions : List (String × VersionInfo)
deriving DecidableEq, Repr

/-- The I/O environment of the engine. `findPipelineFiles` (glob),
`extractRepositoryDeclarations` (YAML parse plus regex fallback, whose
regex construction can throw on aliases containing regex
metacharacters), the filesystem existence check (a user-configurable
`FileSystem` whose operations may throw) and the two git queries are
abstracted here; operations that may raise a JS exception return
`Except String`, carrying the error message. `readFileContent`
(`utils/file.ts`) catches internally and returns `""`, so it is total;
`resolveTargetPath` and `joinPaths` likewise. The two pattern scans of
`extractReferencesFromPatterns` are pure regex matching, abstracted as
total functions of the file path and content. -/
structure Env where
  findPipelineFiles : String → Except String (List String)
  readFileContent : String → String
  localMatches : String → String → List PipelineReference
  externalMatches : String → String → List PipelineReference
  extractDecls : String → Except String DeclResult
  fileExists : String → Except String Bool
  validateRepoVersion : String → String → Option VersionType → Except String Bool
  validateFileAtVersion : String → String → Option String → Option VersionType → Except String Bool
  resolveTargetPath : String → String → String
  joinPaths : String → String → String

/-! ## `validators/utils.ts` -/

/-- `findRepoConfig` from `src/validators/utils.ts`: exact name match first,
then alias match, else `undefined`. -/
def findRepoConfig (repoName : String) (configs : List RepoConfig) :
    Option RepoConfig :=
  match configs.find? (fun r => r.name == repoName) with
  | some config => some config
  | none => configs.find? (fun r => r.aliases.contains repoName)

/-! ## `references.ts` -/

/-- The deduplication key of `extractReferences`:
`` `${ref.source}:${ref.lineNumber}:${ref.target}` ``. -/
def refKey (ref : PipelineReference) : String :=
  ref.source ++ ":" ++ toString ref.lineNumber ++ ":" ++ ref.target

/-- The pattern-scan and deduplication stage of `extractReferences`
(`references.ts` lines 17–52): local matches are inserted first and only
when the key is fresh; external matches are inserted afterwards with
overwriting `Map.set` semantics; the result is the list of map values. -/
def baseReferences (env : Env) (filePath fileContent : String) :
    List PipelineReference :=
  let localReferences := env.localMatches filePath fileContent
  let externalReferences := env.externalMatches filePath fileContent
  let uniqueRefs : List (String × PipelineReference) :=
    localReferences.foldl (fun m ref =>
      if jsMapHas m (refKey ref) then m else jsMapSet m (refKey ref) ref) []
  let uniqueRefs := externalReferences.foldl
    (fun m ref => jsMapSet m (refKey ref) ref) uniqueRefs
  uniqueRefs.map (·.2)

/-- JS `versionInfo?.version` truthiness: a declaration carries a usable
version when the lookup succeeded and the version string is non-empty. -/
def declHasVersion : Option VersionInfo → Bool
  | some vi => vi.version ≠ ""
  | none => false

/-- The synthetic `repository:` metadata reference emitted for a
declaration (`references.ts` lines 62–76); `versionInfo` is the
`repoVersions[alias]` lookup and the version fields are populated exactly
when `versionInfo?.version` is truthy. -/
def declRef (filePath : String) (repoVersions : List (String × VersionInfo))
    (decl : String × String) : PipelineReference :=
  { source := filePath
    target := "repository:" ++ decl.2
    targetRepo := some decl.1
    targetVersion :=
      if declHasVersion (jsMapGet repoVersions decl.1) then
        (jsMapGet repoVersions decl.1).map (·.version)
      else none
    versionType :=
      if declHasVersion (jsMapGet repoVersions decl.1) then
        (jsMapGet repoVersions decl.1).map (·.versionType)
      else none
    lineNumber := 0
    context := "Repository reference: " ++ decl.1 ++ " -> " ++ decl.2 }

/-- The back-fill applied to one already-collected reference for one
declaration (`references.ts` lines 79–85): a reference targeting the
declaration's alias with no version of its own receives the declaration's
version and kind. -/
def backfillUpdate (repoVersions : List (String × VersionInfo))
    (decl : String × String) (ref : PipelineReference) : PipelineReference :=
  if ref.targetRepo == some decl.1 && !(truthy ref.targetVersion) &&
      declHasVersion (jsMapGet repoVersions decl.1) then
    { ref with targetVersion := (jsMapGet repoVersions decl.1).map (·.version)
               versionType := (jsMapGet repoVersions decl.1).map (·.versionType) }
  else ref

/-- A reference carrying a declaration's version and kind. -/
def withVersion (r : PipelineReference) (vinfo : VersionInfo) :
    PipelineReference :=
  { r with targetVersion := some vinfo.version
           versionType := some vinfo.versionType }

/-- One iteration of the declaration loop of `extractReferences`
(`references.ts` lines 59–86): emit the synthetic `repository:` metadata
reference, then back-fill the declaration's version onto every collected
reference (the freshly pushed synthetic one included, as in the source's
loop over `references`). -/
def applyRepositoryDeclaration (filePath : String)
    (repoVersions : List (String × VersionInfo))
    (references : List PipelineReference) (decl : String × String) :
    List PipelineReference :=
  (references ++ [declRef filePath repoVersions decl]).map
    (backfillUpdate repoVersions decl)

/-- `extractReferences` from `src/validators/references.ts`: pattern scan
and deduplication, then (when declaration extraction does not throw) the
declaration loop; a throwing declaration extraction is caught and the
regex-based references kept. -/
def extractReferences (env : Env) (filePath fileContent : String) :
    List PipelineReference :=
  let references := baseReferences env filePath fileContent
  match env.extractDecls fileContent with
  | .error _ => references
  | .ok declResult =>
      declResult.repos.foldl
        (applyRepositoryDeclaration filePath declResult.repoVersions) references

/-- `collectAllReferences` from `src/validators/references.ts`: iterate all
repositories (note: with no `skipValidation` filter), discover pipeline
files, and extract references; per-repository and per-file failures are
caught and skipped. -/
def collectAllReferences (env : Env) (repoConfigs : List RepoConfig) :
    List PipelineReference :=
  repoConfigs.foldl (fun allReferences repo =>
    match env.findPipelineFiles repo.path with
    | .error _ => allReferences
    | .ok pipelineFiles =>
        pipelineFiles.foldl (fun acc filePath =>
          acc ++ extractReferences env filePath (env.readFileContent filePath))
          allReferences) []

/-- The `repoNameMap` of `discoverRepositoryAliases` (`references.ts` lines
151–160): map each repository name, and its `org/name`-normalized form when
different, to its configuration. -/
def buildRepoNameMap (repoConfigs : List RepoConfig) :
    List (String × RepoConfig) :=
  repoConfigs.foldl (fun m repo =>
    let m := jsMapSet m repo.name repo
    let normalizedName := jsSplitSlashLast repo.name
    if normalizedName ≠ repo.name then jsMapSet m normalizedName repo else m) []

/-- The initialization of `discoveredAliases` (`references.ts` lines
163–168): each repository name mapped to the set of its existing aliases. -/
def initialAliasMap (repoConfigs : List RepoConfig) :
    List (String × List String) :=
  repoConfigs.foldl
    (fun m repo => jsMapSet m repo.name (setOfList repo.aliases)) []

/-- One alias registration (`references.ts` lines 185–187): fetch the
target's current alias set (empty when absent), add the alias, store it
back. -/
def addAlias (discovered : List (String × List String)) (targetName al : String) :
    List (String × List String) :=
  jsMapSet discovered targetName
    (setAdd ((jsMapGet discovered targetName).getD []) al)

/-- The declaration loop of `discoverRepositoryAliases` (`references.ts`
lines 180–190): resolve each declaration's canonical name through the name
map and add the alias to the target repository's alias set. -/
def addDeclAliases (repoNameMap : List (String × RepoConfig))
    (discovered : List (String × List String))
    (repos : List (String × String)) : List (String × List String) :=
  repos.foldl (fun discovered decl =>
    match jsMapGet repoNameMap decl.2 with
    | some targetRepo => addAlias discovered targetRepo.name decl.1
    | none => discovered) discovered

/-- The per-file loop of `discoverRepositoryAliases` (`references.ts` lines
174–197): extraction failures are caught and the file skipped. -/
def scanRepoFiles (env : Env) (repoNameMap : List (String × RepoConfig))
    (discovered : List (String × List String)) (pipelineFiles : List String) :
    List (String × List String) :=
  pipelineFiles.foldl (fun discovered filePath =>
    match env.extractDecls (env.readFileContent filePath) with
    | .error _ => discovered
    | .ok declResult => addDeclAliases repoNameMap discovered declResult.repos)
    discovered

/-- The output stage of `discoverRepositoryAliases` (`references.ts`
lines 201–210): a configuration found in the discovered map receives the
discovered alias list, otherwise it is returned untouched. -/
def applyDiscovered (discovered : List (String × List String))
    (repo : RepoConfig) : RepoConfig :=
  match jsMapGet discovered repo.name with
  | some aliases => { repo with aliases := aliases }
  | none => repo

/-- `discoverRepositoryAliases` from `src/validators/references.ts`. The
per-repository `findPipelineFiles` call (line 172) is **not** inside a
`try`, so its failure propagates out of the function. -/
def discoverRepositoryAliases (env : Env) (repoConfigs : List RepoConfig) :
    Except String (List RepoConfig) := do
  let repoNameMap := buildRepoNameMap repoConfigs
  let init := initialAliasMap repoConfigs
  let discovered ← repoConfigs.foldlM (fun discovered repo => do
      let pipelineFiles ← env.findPipelineFiles repo.path
      return scanRepoFiles env repoNameMap discovered pipelineFiles) init
  return repoConfigs.map (applyDiscovered discovered)

/-- The files of a repository path when discovery succeeds, `[]` when it
throws (used to state lemmas about the successful runs of
`discoverRepositoryAliases`). -/
def filesOf (env : Env) (path : String) : List String :=
  match env.findPipelineFiles path with
  | .ok fs => fs
  | .error _ => []

/-- The pure unfolding of the scanning phase of
`discoverRepositoryAliases`, equal to it whenever every repository's file
discovery succeeds. -/
def scanAllPure (env : Env) (repoNameMap : List (String × RepoConfig))
    (repoConfigs : List RepoConfig)
    (discovered : List (String × List String)) :
    List (String × List String) :=
  repoConfigs.foldl
    (fun discovered repo =>
      scanRepoFiles env repoNameMap discovered (filesOf env repo.path))
    discovered

/-! ## `validation.ts` -/

/-- The version-shape inference of `validateExternalReference`
(`validation.ts` lines 72–80 and, identically, 119–125): exact 40-hex →
commit, leading `v` + digit → tag, otherwise branch. -/
def inferVersionType (version : String) : VersionType :=
  if isCommitHash version then .commit
  else if isTagShape version then .tag
  else .branch

/-- The tail of `validateExternalReference` (`validation.ts` lines
98–148): resolve the target inside the repository, accept an unversioned
reference whose file exists, otherwise fall back to the git file check. -/
def finishExternal (env : Env) (reference : PipelineReference)
    (targetRepo : String) (targetRepoConfig : RepoConfig)
    (validReferences brokenReferences versionIssues : List PipelineReference) :
    Except String (ReferenceValidationResult × List PipelineReference ×
      List PipelineReference × List PipelineReference) := do
  let resolvedPath := env.joinPaths targetRepoConfig.path
    (if jsStartsWith reference.target "/" then jsDrop reference.target 1
     else reference.target)
  let ex ← env.fileExists resolvedPath
  if ex && !(truthy reference.targetVersion) then
    return (.VALID, validReferences ++ [reference], brokenReferences,
      versionIssues)
  else
    let versionToUse : Option String :=
      if truthy reference.targetVersion then reference.targetVersion
      else targetRepoConfig.ref
    let versionTypeToUse : Option VersionType :=
      if truthy versionToUse && reference.versionType.isNone then
        some (inferVersionType (versionToUse.getD ""))
      else reference.versionType
    let ok ← env.validateFileAtVersion targetRepoConfig.path reference.target
      versionToUse versionTypeToUse
    if !ok then
      return (.BROKEN_PATH, validReferences,
        brokenReferences ++ [{ reference with
          target := "Template not found: " ++ reference.target ++ " in repo "
            ++ targetRepo ++
            (if truthy versionToUse then
              " at version " ++ versionToUse.getD "" else "") }],
        versionIssues)
    else
      return (.VALID, validReferences ++ [reference], brokenReferences,
        versionIssues)

/-- The version-precedence choice of `validateExternalReference`
(`validation.ts` lines 49–59): the reference's own version first, else the
target configuration's pinned `ref`, else none. -/
def chosenVersion (reference : PipelineReference) (cfg : RepoConfig) :
    Option String :=
  if truthy reference.targetVersion then reference.targetVersion
  else if truthy cfg.ref then cfg.ref
  else none

/-- `validateExternalReference` from `src/validators/validation.ts`:
unknown repository → `MISSING_REPO`; `skipValidation` target → `VALID`
unconditionally; otherwise choose a version (reference's own, else the
configuration's `ref`), normalize a `refs/`-prefixed version through
`parseVersionReference`, infer a missing kind from the shape, check the
version, then check the file. -/
def validateExternalReference (env : Env) (reference : PipelineReference)
    (targetRepo : String) (repoConfigs : List RepoConfig)
    (validReferences brokenReferences versionIssues : List PipelineReference) :
    Except String (ReferenceValidationResult × List PipelineReference ×
      List PipelineReference × List PipelineReference) :=
  match findRepoConfig targetRepo repoConfigs with
  | none =>
      .ok (.MISSING_REPO, validReferences,
        brokenReferences ++
          [{ reference with target := "Unknown repository: " ++ targetRepo }],
        versionIssues)
  | some targetRepoConfig =>
    if targetRepoConfig.skipValidation then
      .ok (.VALID, validReferences ++ [reference], brokenReferences,
        versionIssues)
    else
      let version : Option String := chosenVersion reference targetRepoConfig
      let versionType : Option VersionType :=
        if truthy reference.targetVersion then reference.versionType else none
      match version with
      | some v => do
          let vt : String × Option VersionType :=
            if jsStartsWith v "refs/" then
              let versionInfo := parseVersionReference v
              (versionInfo.version, some versionInfo.versionType)
            else if versionType.isNone then
              (v, some (inferVersionType v))
            else
              (v, versionType)
          let ok ← env.validateRepoVersion targetRepoConfig.path vt.1 vt.2
          if !ok then
            return (.INVALID_VERSION, validReferences, brokenReferences,
              versionIssues ++ [{ reference with
                target := "Invalid version " ++ vt.1 ++ " in repo " ++ targetRepo
                targetVersion := some vt.1
                versionType := vt.2 }])
          else
            finishExternal env
              { reference with targetVersion := some vt.1, versionType := vt.2 }
              targetRepo targetRepoConfig
              validReferences brokenReferences versionIssues
      | none =>
          finishExternal env reference targetRepo targetRepoConfig
            validReferences brokenReferences versionIssues

/-- Modelled from the spec (claim C2), for comparison with the source
function `validateExternalReference`: identical except for the
version-normalization block, which here follows the claim's words only —
the chosen version is used as-is and, whenever it has no explicit kind,
its kind is inferred from its shape (40-hex → commit, leading `v` +
digit → tag, otherwise branch), with no special handling of
`refs/`-prefixed strings. -/
def validateExternalReference_claim (env : Env) (reference : PipelineReference)
    (targetRepo : String) (repoConfigs : List RepoConfig)
    (validReferences brokenReferences versionIssues : List PipelineReference) :
    Except String (ReferenceValidationResult × List PipelineReference ×
      List PipelineReference × List PipelineReference) :=
  match findRepoConfig targetRepo repoConfigs with
  | none =>
      .ok (.MISSING_REPO, validReferences,
        brokenReferences ++
          [{ reference with target := "Unknown repository: " ++ targetRepo }],
        versionIssues)
  | some targetRepoConfig =>
    if targetRepoConfig.skipValidation then
      .ok (.VALID, validReferences ++ [reference], brokenReferences,
        versionIssues)
    else
      let version : Option String := chosenVersion reference targetRepoConfig
      let versionType : Option VersionType :=
        if truthy reference.targetVersion then reference.versionType else none
      match version with
      | some v => do
          let vt : String × Option VersionType :=
            if versionType.isNone then (v, some (inferVersionType v))
            else (v, versionType)
          let ok ← env.validateRepoVersion targetRepoConfig.path vt.1 vt.2
          if !ok then
            return (.INVALID_VERSION, validReferences, brokenReferences,
              versionIssues ++ [{ reference with
                target := "Invalid version " ++ vt.1 ++ " in repo " ++ targetRepo
                targetVersion := some vt.1
                versionType := vt.2 }])
          else
            finishExternal env
              { reference with targetVersion := some vt.1, versionType := vt.2 }
              targetRepo targetRepoConfig
              validReferences brokenReferences versionIssues
      | none =>
          finishExternal env reference targetRepo targetRepoConfig
            validReferences brokenReferences versionIssues

/-- The side condition under which the source and the claim's version rule
agree: the target repository is unresolved or skip-flagged, or the chosen
version (if any) does not start with `refs/`. -/
def noRefsPrefixChoice (reference : PipelineReference) (targetRepo : String)
    (repoConfigs : List RepoConfig) : Bool :=
  match findRepoConfig targetRepo repoConfigs with
  | none => true
  | some cfg =>
      cfg.skipValidation ||
        match chosenVersion reference cfg with
        | some v => !(jsStartsWith v "refs/")
        | none => true

/-- `validateLocalReference` from `src/validators/validation.ts`. -/
def validateLocalReference (env : Env) (reference : PipelineReference)
    (validReferences brokenReferences : List PipelineReference) :
    Except String (ReferenceValidationResult × List PipelineReference ×
      List PipelineReference) := do
  let resolvedPath := env.resolveTargetPath reference.source reference.target
  let ex ← env.fileExists resolvedPath
  if ex then
    return (.VALID, validReferences ++ [reference], brokenReferences)
  else
    return (.BROKEN_PATH, validReferences,
      brokenReferences ++ [{ reference with target := resolvedPath }])

/-- The body of the `try` block of `validateReference` (`validation.ts`
lines 195–207): dispatch on the truthiness of `targetRepo`. -/
def attemptReference (env : Env) (reference : PipelineReference)
    (repoConfigs : List RepoConfig)
    (validReferences brokenReferences versionIssues : List PipelineReference) :
    Except String (ReferenceValidationResult × List PipelineReference ×
      List PipelineReference × List PipelineReference) :=
  if truthy reference.targetRepo then
    validateExternalReference env reference (reference.targetRepo.getD "")
      repoConfigs validReferences brokenReferences versionIssues
  else
    (validateLocalReference env reference validReferences brokenReferences).map
      (fun r => (r.1, r.2.1, r.2.2, versionIssues))

/-- `validateReference` from `src/validators/validation.ts`: the
per-reference safety net — any exception is caught and converted into a
`BROKEN_PATH` outcome with the error message embedded in the target. -/
def validateReference (env : Env) (reference : PipelineReference)
    (repoConfigs : List RepoConfig)
    (validReferences brokenReferences versionIssues : List PipelineReference) :
    ReferenceValidationResult × List PipelineReference ×
      List PipelineReference × List PipelineReference :=
  match attemptReference env reference repoConfigs validReferences
    brokenReferences versionIssues with
  | .ok result => result
  | .error e =>
      (.BROKEN_PATH, validReferences,
        brokenReferences ++ [{ reference with
          target := "Error validating: " ++ reference.target ++ " - " ++ e }],
        versionIssues)

/-- The input normalization of `validatePipelines` (`validation.ts` lines
236–239): a single path becomes a one-element configuration list. -/
def normalizeRepos : String ⊕ List RepoConfig → List RepoConfig
  | .inl path => [{ name := "repo", path := path, aliases := [] }]
  | .inr repos => repos

/-- One iteration of the reference loop of `validatePipelines`
(`validation.ts` lines 259–273): declaration markers go straight to
`validReferences`, everything else through `validateReference`. -/
def processReference (env : Env) (repoConfigs : List RepoConfig)
    (buckets : List PipelineReference × List PipelineReference ×
      List PipelineReference) (reference : PipelineReference) :
    List PipelineReference × List PipelineReference × List PipelineReference :=
  if jsStartsWith reference.target "repository:" then
    (buckets.1 ++ [reference], buckets.2.1, buckets.2.2)
  else
    let r := validateReference env reference repoConfigs
      buckets.1 buckets.2.1 buckets.2.2
    (r.2.1, r.2.2.1, r.2.2.2)

/-- `validatePipelines` from `src/validators/validation.ts`: the public
entry point of the engine. -/
def validatePipelines (env : Env) (repos : String ⊕ List RepoConfig) :
    Except String ValidationResult := do
  let initialRepoConfigs := normalizeRepos repos
  let repoConfigs ← discoverRepositoryAliases env initialRepoConfigs
  let allReferences := collectAllReferences env repoConfigs
  let buckets := allReferences.foldl (processReference env repoConfigs)
    ([], [], [])
  return {
    isValid := buckets.2.1.length == 0 && buckets.2.2.length == 0
    brokenReferences := buckets.2.1
    validReferences := buckets.1
    versionIssues := buckets.2.2 }

/-! ## Concrete fixtures for witnesses and counterexamples -/

/-- A degenerate environment whose every query fails or returns nothing,
used to witness environment-independence results. -/
def pureEnv : Env where
  findPipelineFiles := fun _ => .ok []
  readFileContent := fun _ => ""
  localMatches := fun _ _ => []
  externalMatches := fun _ _ => []
  extractDecls := fun _ => .ok ⟨[], []⟩
  fileExists := fun _ => .ok false
  validateRepoVersion := fun _ _ _ => .ok false
  validateFileAtVersion := fun _ _ _ _ => .ok false
  resolveTargetPath := fun s t => s ++ "|" ++ t
  joinPaths := fun a b => a ++ "/" ++ b

/-- A reference with no version of its own, targeting repository `R`. -/
def refPlain : PipelineReference :=
  { source := "s.yml", target := "t.yml", targetRepo := some "R"
    lineNumber := 1, context := "c" }

/-- A configuration for `R` pinned to the namespaced ref
`refs/heads/main`. -/
def cfgPinnedRefs : RepoConfig :=
  { name := "R", path := "/r", ref := some "refs/heads/main" }

/-- An environment in which only the exact version string
`refs/heads/main` verifies, the plain filesystem check fails, and the git
file check succeeds: it distinguishes the source's `refs/` normalization
from the claim's literal shape rule. -/
def envRefsSensitive : Env :=
  { pureEnv with
    validateRepoVersion := fun _ v _ => .ok (v == "refs/heads/main")
    validateFileAtVersion := fun _ _ _ _ => .ok true }

/-- A configuration for `R` pinned to the plain ref `main`. -/
def cfgPinnedPlain : RepoConfig :=
  { name := "R", path := "/r", ref := some "main" }

/-- An environment whose filesystem existence check throws, exercising the
per-reference safety net. -/
def envThrowingFs : Env :=
  { pureEnv with fileExists := fun _ => .error "boom" }

/-- A local reference (no target repository). -/
def refLocal : PipelineReference :=
  { source := "/r1/a.yml", target := "x.yml", lineNumber := 1, context := "c" }

/-- A two-repository configuration whose second repository is flagged
`skipValidation`. -/
def skipCfgs : List RepoConfig :=
  [{ name := "repo1", path := "/r1" },
   { name := "repo2", path := "/r2", skipValidation := true }]

/-- A filesystem state in which the skip-flagged repository `/r2` contains
one pipeline file with one dangling local reference, while `/r1` is
empty. -/
def envSkipNonEmpty : Env :=
  { pureEnv with
    findPipelineFiles := fun p =>
      if p == "/r2" then .ok ["/r2/p.yml"] else .ok []
    localMatches := fun fp _ =>
      if fp == "/r2/p.yml" then
        [{ source := "/r2/p.yml", target := "missing.yml", lineNumber := 3,
           context := "c" }]
      else [] }

/-- The same filesystem state with the contents beneath `/r2` removed:
the two environments differ only beneath the skip-flagged repository's
path. -/
def envSkipEmpty : Env :=
  { envSkipNonEmpty with findPipelineFiles := fun _ => .ok [] }

/-- A state in which file discovery beneath the skip-flagged repository
`/r2` throws, and succeeds everywhere else. -/
def envSkipCrash : Env :=
  { envSkipNonEmpty with
    findPipelineFiles := fun p =>
      if p == "/r2" then .error "crash" else .ok [] }


/-- A duplicate-producing extraction state: the same file position yields a
local-style match and an external-style match with the same target. -/
def envDup : Env :=
  { pureEnv with
    localMatches := fun _ _ =>
      [{ source := "f.yml", target := "t.yml", lineNumber := 2,
         context := "lc" }],
    externalMatches := fun _ _ =>
      [{ source := "f.yml", target := "t.yml", targetRepo := some "R",
         lineNumber := 2, context := "ec" }] }

/-- A reference to alias `A` carrying no version of its own. -/
def refExt : PipelineReference :=
  { source := "f.yml", target := "t.yml", targetRepo := some "A",
    lineNumber := 1, context := "c" }

/-- An extraction state with one external match targeting alias `A` and a
declaration binding `A` to `org/tmpl` at tag `v2.0`. -/
def envDecl : Env :=
  { pureEnv with
    externalMatches := fun _ _ => [refExt],
    extractDecls := fun _ =>
      .ok ⟨[("A", "org/tmpl")], [("A", ⟨"v2.0", VersionType.tag⟩)]⟩ }

/-- A two-repository state in which the first repository's single
pipeline file declares alias `tmpl` for the canonical name `templates`. -/
def env9 : Env :=
  { pureEnv with
    findPipelineFiles := fun p =>
      if p == "/r1" then .ok ["/r1/p.yml"] else .ok []
    extractDecls := fun _ => .ok ⟨[("tmpl", "templates")], []⟩ }

/-- The two configurations scanned by `env9`. -/
def cfgs9 : List RepoConfig :=
  [{ name := "main", path := "/r1" }, { name := "templates", path := "/r2" }]

/-- The enriched configurations produced by one discovery run over
`cfgs9` in `env9`. -/
def c9out : List RepoConfig :=
  [{ name := "main", path := "/r1" },
   { name := "templates", path := "/r2", aliases := ["tmpl"] }]


/-! ## Helper lemmas -/

theorem finishExternal_count (env : Env) (reference : PipelineReference)
    (t : String) (cfg : RepoConfig) (v b vi : List PipelineReference)
    (r : ReferenceValidationResult) (v' b' vi' : List PipelineReference)
    (h : finishExternal env reference t cfg v b vi = .ok (r, v', b', vi')) :
    v'.length + b'.length + vi'.length = v.length + b.length + vi.length + 1 := by
  unfold finishExternal at h
  simp only [bind, Except.bind, pure, Except.pure] at h
  repeat' split at h
  all_goals first
    | (simp at h; done)
    | (simp only [Except.ok.injEq, Prod.mk.injEq] at h
       obtain ⟨-, hv, hb, hvi⟩ := h
       subst hv; subst hb; subst hvi
       simp [List.length_append]
       omega)

theorem validateExternalReference_count (env : Env)
    (reference : PipelineReference) (t : String) (cfgs : List RepoConfig)
    (v b vi : List PipelineReference) (r : ReferenceValidationResult)
    (v' b' vi' : List PipelineReference)
    (h : validateExternalReference env reference t cfgs v b vi =
      .ok (r, v', b', vi')) :
    v'.length + b'.length + vi'.length = v.length + b.length + vi.length + 1 := by
  unfold validateExternalReference at h
  simp only [bind, Except.bind, pure, Except.pure] at h
  repeat' split at h
  all_goals first
    | (simp at h; done)
    | exact finishExternal_count _ _ _ _ _ _ _ _ _ _ _ h
    | (simp only [Except.ok.injEq, Prod.mk.injEq] at h
       obtain ⟨-, hv, hb, hvi⟩ := h
       subst hv; subst hb; subst hvi
       simp [List.length_append]
       omega)

theorem validateLocalReference_count (env : Env)
    (reference : PipelineReference) (v b : List PipelineReference)
    (r : ReferenceValidationResult) (v' b' : List PipelineReference)
    (h : validateLocalReference env reference v b = .ok (r, v', b')) :
    v'.length + b'.length = v.length + b.length + 1 := by
  unfold validateLocalReference at h
  simp only [bind, Except.bind, pure, Except.pure] at h
  repeat' split at h
  all_goals first
    | (simp at h; done)
    | (simp only [Except.ok.injEq, Prod.mk.injEq] at h
       obtain ⟨-, hv, hb⟩ := h
       subst hv; subst hb
       simp [List.length_append]
       omega)

theorem attemptReference_count (env : Env) (reference : PipelineReference)
    (cfgs : List RepoConfig) (v b vi : List PipelineReference)
    (res : ReferenceValidationResult × List PipelineReference ×
      List PipelineReference × List PipelineReference)
    (h : attemptReference env reference cfgs v b vi = .ok res) :
    res.2.1.length + res.2.2.1.length + res.2.2.2.length =
      v.length + b.length + vi.length + 1 := by
  unfold attemptReference at h
  split at h
  · obtain ⟨r, v', b', vi'⟩ := res
    exact validateExternalReference_count _ _ _ _ _ _ _ _ _ _ _ h
  · cases hl : validateLocalReference env reference v b with
    | error e => rw [hl] at h; simp [Except.map] at h
    | ok out =>
      rw [hl] at h
      obtain ⟨r2, v2, b2⟩ := out
      simp only [Except.map, Except.ok.injEq] at h
      subst h
      have := validateLocalReference_count env reference v b r2 v2 b2 hl
      simp only []
      omega

theorem validateReference_count (env : Env) (reference : PipelineReference)
    (cfgs : List RepoConfig) (v b vi : List PipelineReference) :
    (validateReference env reference cfgs v b vi).2.1.length +
      (validateReference env reference cfgs v b vi).2.2.1.length +
      (validateReference env reference cfgs v b vi).2.2.2.length =
      v.length + b.length + vi.length + 1 := by
  unfold validateReference
  cases ha : attemptReference env reference cfgs v b vi with
  | ok res => exact attemptReference_count env reference cfgs v b vi res ha
  | error e => simp [List.length_append]; omega

theorem processReference_count (env : Env) (cfgs : List RepoConfig)
    (buckets : List PipelineReference × List PipelineReference ×
      List PipelineReference) (reference : PipelineReference) :
    (processReference env cfgs buckets reference).1.length +
      (processReference env cfgs buckets reference).2.1.length +
      (processReference env cfgs buckets reference).2.2.length =
      buckets.1.length + buckets.2.1.length + buckets.2.2.length + 1 := by
  unfold processReference
  split
  · simp [List.length_append]; omega
  · exact validateReference_count env reference cfgs buckets.1 buckets.2.1
      buckets.2.2

theorem foldl_processReference_count (env : Env) (cfgs : List RepoConfig)
    (refs : List PipelineReference)
    (buckets : List PipelineReference × List PipelineReference ×
      List PipelineReference) :
    (refs.foldl (processReference env cfgs) buckets).1.length +
      (refs.foldl (processReference env cfgs) buckets).2.1.length +
      (refs.foldl (processReference env cfgs) buckets).2.2.length =
      buckets.1.length + buckets.2.1.length + buckets.2.2.length +
        refs.length := by
  induction refs generalizing buckets with
  | nil => simp
  | cons reference rest ih =>
    simp only [List.foldl_cons, List.length_cons]
    rw [ih (processReference env cfgs buckets reference)]
    have := processReference_count env cfgs buckets reference
    omega

theorem jsStartsWith_append (p rest : String) : jsStartsWith (p ++ rest) p = true := by
  have h : p.data <+: (p ++ rest).data := by
    rw [String.data_append]
    exact List.prefix_append _ _
  simp [jsStartsWith, List.isPrefixOf_iff_prefix, h]

theorem jsDrop_append (p rest : String) : jsDrop (p ++ rest) p.data.length = rest := by
  simp [jsDrop, String.data_append, List.drop_left]

theorem jsDrop_tags (rest : String) : jsDrop ("refs/tags/" ++ rest) 10 = rest := by
  have h : ("refs/tags/" : String).data.length = 10 := by decide
  have h2 := jsDrop_append "refs/tags/" rest
  rwa [h] at h2

theorem jsDrop_heads (rest : String) : jsDrop ("refs/heads/" ++ rest) 11 = rest := by
  have h : ("refs/heads/" : String).data.length = 11 := by decide
  have h2 := jsDrop_append "refs/heads/" rest
  rwa [h] at h2

theorem beq_symm_false {k k' : String} (hne : ¬ (k' == k) = true) :
    (k == k') = false := by
  rw [beq_eq_false_iff_ne]
  intro h
  exact hne (by simp [h])

theorem getReplaceSelf {α : Type} (m : List (String × α)) (k : String) (v : α) :
    jsMapGet (m.map (fun p => if p.1 == k then (k, v) else p)) k =
      if jsMapHas m k then some v else none := by
  induction m with
  | nil => rfl
  | cons p rest ih =>
    simp only [jsMapGet, jsMapHas] at ih ⊢
    rw [List.map_cons]
    simp only [List.any_cons]
    by_cases hk : (p.1 == k) = true
    · rw [if_pos hk,
        @List.find?_cons_of_pos (String × α) (fun q => q.1 == k) (k, v)
          (rest.map (fun p => if p.1 == k then (k, v) else p)) (by simp)]
      simp [hk]
    · rw [if_neg hk,
        @List.find?_cons_of_neg (String × α) (fun q => q.1 == k) p
          (rest.map (fun p => if p.1 == k then (k, v) else p)) (by simpa using hk)]
      rw [Bool.not_eq_true] at hk
      simp only [hk, Bool.false_or]
      exact ih

theorem getAppendNew {α : Type} (m : List (String × α)) (k : String) (v : α) :
    jsMapHas m k = false → jsMapGet (m ++ [(k, v)]) k = some v := by
  induction m with
  | nil =>
    intro h
    simp [jsMapGet]
  | cons p rest ih =>
    intro h
    simp only [jsMapHas, List.any_cons, Bool.or_eq_false_iff] at h
    simp only [List.cons_append, jsMapGet] at ih ⊢
    rw [@List.find?_cons_of_neg (String × α) (fun q => q.1 == k) p
      (rest ++ [(k, v)]) (by simp [h.1])]
    exact ih (by simp [jsMapHas, h.2])

theorem jsMapGet_jsMapSet_self {α : Type} (m : List (String × α)) (k : String)
    (v : α) : jsMapGet (jsMapSet m k v) k = some v := by
  by_cases hc : jsMapHas m k = true
  · rw [jsMapSet, if_pos hc, getReplaceSelf, if_pos hc]
  · rw [jsMapSet, if_neg hc]
    exact getAppendNew m k v (by simpa using hc)

theorem getReplaceNe {α : Type} (m : List (String × α)) (k k' : String) (v : α)
    (hne : ¬ (k' == k) = true) :
    jsMapGet (m.map (fun p => if p.1 == k then (k, v) else p)) k' =
      jsMapGet m k' := by
  induction m with
  | nil => rfl
  | cons p rest ih =>
    simp only [jsMapGet] at ih ⊢
    rw [List.map_cons]
    by_cases hk : (p.1 == k) = true
    · have hp : ¬ (p.1 == k') = true := by
        rw [beq_iff_eq] at hk
        rw [hk]
        simp [beq_symm_false hne]
      rw [if_pos hk,
        @List.find?_cons_of_neg (String × α) (fun q => q.1 == k') (k, v)
          (rest.map (fun p => if p.1 == k then (k, v) else p))
          (by simp [beq_symm_false hne]),
        @List.find?_cons_of_neg (String × α) (fun q => q.1 == k') p rest hp]
      exact ih
    · rw [if_neg hk]
      by_cases hp : (p.1 == k') = true
      · rw [@List.find?_cons_of_pos (String × α) (fun q => q.1 == k') p
          (rest.map (fun p => if p.1 == k then (k, v) else p)) hp,
          @List.find?_cons_of_pos (String × α) (fun q => q.1 == k') p rest hp]
      · rw [@List.find?_cons_of_neg (String × α) (fun q => q.1 == k') p
          (rest.map (fun p => if p.1 == k then (k, v) else p)) hp,
          @List.find?_cons_of_neg (String × α) (fun q => q.1 == k') p rest hp]
        exact ih

theorem getAppendNe {α : Type} (m : List (String × α)) (k k' : String) (v : α)
    (hne : ¬ (k' == k) = true) :
    jsMapGet (m ++ [(k, v)]) k' = jsMapGet m k' := by
  induction m with
  | nil =>
    simp only [List.nil_append, jsMapGet]
    rw [@List.find?_cons_of_neg (String × α) (fun q => q.1 == k') (k, v) []
      (by simp [beq_symm_false hne])]
  | cons p rest ih =>
    simp only [List.cons_append, jsMapGet] at ih ⊢
    by_cases hp : (p.1 == k') = true
    · rw [@List.find?_cons_of_pos (String × α) (fun q => q.1 == k') p
        (rest ++ [(k, v)]) hp,
        @List.find?_cons_of_pos (String × α) (fun q => q.1 == k') p rest hp]
    · rw [@List.find?_cons_of_neg (String × α) (fun q => q.1 == k') p
        (rest ++ [(k, v)]) hp,
        @List.find?_cons_of_neg (String × α) (fun q => q.1 == k') p rest hp]
      exact ih

theorem jsMapGet_jsMapSet_ne {α : Type} (m : List (String × α)) (k k' : String)
    (v : α) (hne : k' ≠ k) : jsMapGet (jsMapSet m k v) k' = jsMapGet m k' := by
  have hne' : ¬ (k' == k) = true := by simpa [beq_iff_eq] using hne
  by_cases hc : jsMapHas m k = true
  · rw [jsMapSet, if_pos hc, getReplaceNe m k k' v hne']
  · rw [jsMapSet, if_neg hc, getAppendNe m k k' v hne']


theorem baseReferences_eq (env : Env) (fp content : String) :
    baseReferences env fp content =
      ((env.externalMatches fp content).foldl
        (fun m ref => jsMapSet m (refKey ref) ref)
        ((env.localMatches fp content).foldl
          (fun m ref =>
            if jsMapHas m (refKey ref) then m else jsMapSet m (refKey ref) ref)
          [])).map (·.2) := rfl

theorem coherent_jsMapSet (m : List (String × PipelineReference))
    (r : PipelineReference) (h : ∀ p ∈ m, refKey p.2 = p.1) :
    ∀ p ∈ jsMapSet m (refKey r) r, refKey p.2 = p.1 := by
  intro p hp
  unfold jsMapSet at hp
  split at hp
  · obtain ⟨q, hq, hqe⟩ := List.mem_map.mp hp
    by_cases hqk : (q.1 == refKey r) = true
    · rw [if_pos hqk] at hqe
      subst hqe
      rfl
    · rw [if_neg hqk] at hqe
      subst hqe
      exact h q hq
  · rcases List.mem_append.mp hp with h1 | h2
    · exact h p h1
    · simp only [List.mem_singleton] at h2
      subst h2
      rfl

theorem keys_jsMapSet_replace {α : Type} (m : List (String × α))
    (k : String) (v : α) :
    ((m.map (fun p => if p.1 == k then (k, v) else p)).map Prod.fst) =
      m.map Prod.fst := by
  rw [List.map_map]
  apply List.map_congr_left
  intro p _
  by_cases hk : (p.1 == k) = true
  · simp only [Function.comp_apply, if_pos hk]
    exact (beq_iff_eq.mp hk).symm
  · simp only [Function.comp_apply, if_neg hk]

theorem not_has_not_mem_keys {α : Type} (m : List (String × α))
    (k : String) (h : ¬ jsMapHas m k = true) : k ∉ m.map Prod.fst := by
  intro hk
  obtain ⟨p, hp, hpk⟩ := List.mem_map.mp hk
  exact h (List.any_eq_true.mpr ⟨p, hp, by simp [hpk]⟩)

theorem keysNodup_jsMapSet {α : Type} (m : List (String × α))
    (k : String) (v : α) (h : (m.map Prod.fst).Nodup) :
    ((jsMapSet m k v).map Prod.fst).Nodup := by
  unfold jsMapSet
  split
  · rw [keys_jsMapSet_replace]
    exact h
  · rw [List.map_append]
    refine List.Nodup.append h (List.nodup_singleton k) ?_
    intro a ha hb
    simp only [List.map_cons, List.map_nil, List.mem_singleton] at hb
    subst hb
    exact not_has_not_mem_keys m a (by assumption) ha

theorem jsMapGet_of_mem_nodup {α : Type} (m : List (String × α))
    (hnd : (m.map Prod.fst).Nodup) (p : String × α)
    (hp : p ∈ m) : jsMapGet m p.1 = some p.2 := by
  induction m with
  | nil => cases hp
  | cons q rest ih =>
    rcases List.mem_cons.mp hp with h1 | h2
    · subst h1
      unfold jsMapGet
      rw [@List.find?_cons_of_pos (String × α)
        (fun x => x.1 == p.1) p rest (by simp)]
      rfl
    · have hq : ¬ (q.1 == p.1) = true := by
        simp only [List.map_cons, List.nodup_cons] at hnd
        intro hb
        exact hnd.1 (beq_iff_eq.mp hb ▸ List.mem_map.mpr ⟨p, h2, rfl⟩)
      unfold jsMapGet at ih ⊢
      rw [@List.find?_cons_of_neg (String × α)
        (fun x => x.1 == p.1) q rest hq]
      exact ih (by simpa using (List.nodup_cons.mp (by simpa using hnd)).2) h2

theorem extFold_get_of_no_key (E : List PipelineReference)
    (m : List (String × PipelineReference)) (k : String)
    (hE : ∀ e ∈ E, refKey e ≠ k) :
    jsMapGet (E.foldl (fun m ref => jsMapSet m (refKey ref) ref) m) k =
      jsMapGet m k := by
  induction E generalizing m with
  | nil => rfl
  | cons e rest ih =>
    simp only [List.foldl_cons]
    rw [ih (jsMapSet m (refKey e) e) (fun x hx => hE x (List.mem_cons_of_mem e hx))]
    exact jsMapGet_jsMapSet_ne m (refKey e) k e
      (fun hh => hE e (List.mem_cons_self e rest) hh.symm)

theorem extFold_get_mem (E : List PipelineReference)
    (m : List (String × PipelineReference)) (k : String)
    (hE : ∃ e ∈ E, refKey e = k) :
    ∃ e, jsMapGet (E.foldl (fun m ref => jsMapSet m (refKey ref) ref) m) k =
        some e ∧ e ∈ E ∧ refKey e = k := by
  induction E generalizing m with
  | nil => obtain ⟨e, he, -⟩ := hE; cases he
  | cons e' rest ih =>
    simp only [List.foldl_cons]
    by_cases hr : ∃ e ∈ rest, refKey e = k
    · obtain ⟨e, hg, hm, hk⟩ := ih (jsMapSet m (refKey e') e') hr
      exact ⟨e, hg, List.mem_cons_of_mem e' hm, hk⟩
    · push_neg at hr
      have hk' : refKey e' = k := by
        obtain ⟨e, he, hke⟩ := hE
        rcases List.mem_cons.mp he with h1 | h2
        · exact h1 ▸ hke
        · exact absurd hke (hr e h2)
      refine ⟨e', ?_, List.mem_cons_self e' rest, hk'⟩
      rw [extFold_get_of_no_key rest (jsMapSet m (refKey e') e') k hr]
      rw [← hk']
      exact jsMapGet_jsMapSet_self m (refKey e') e'

theorem coherent_extFold (E : List PipelineReference)
    (m : List (String × PipelineReference)) (h : ∀ p ∈ m, refKey p.2 = p.1) :
    ∀ p ∈ E.foldl (fun m ref => jsMapSet m (refKey ref) ref) m,
      refKey p.2 = p.1 := by
  induction E generalizing m with
  | nil => exact h
  | cons e rest ih =>
    simp only [List.foldl_cons]
    exact ih (jsMapSet m (refKey e) e) (coherent_jsMapSet m e h)

theorem keysNodup_extFold (E : List PipelineReference)
    (m : List (String × PipelineReference)) (h : (m.map Prod.fst).Nodup) :
    (((E.foldl (fun m ref => jsMapSet m (refKey ref) ref) m)).map
      Prod.fst).Nodup := by
  induction E generalizing m with
  | nil => exact h
  | cons e rest ih =>
    simp only [List.foldl_cons]
    exact ih (jsMapSet m (refKey e) e) (keysNodup_jsMapSet m (refKey e) e h)

theorem coherent_localFold (L : List PipelineReference)
    (m : List (String × PipelineReference)) (h : ∀ p ∈ m, refKey p.2 = p.1) :
    ∀ p ∈ L.foldl
        (fun m ref =>
          if jsMapHas m (refKey ref) then m else jsMapSet m (refKey ref) ref) m,
      refKey p.2 = p.1 := by
  induction L generalizing m with
  | nil => exact h
  | cons l rest ih =>
    simp only [List.foldl_cons]
    by_cases hhas : jsMapHas m (refKey l) = true
    · rw [if_pos hhas]
      exact ih m h
    · rw [if_neg hhas]
      exact ih (jsMapSet m (refKey l) l) (coherent_jsMapSet m l h)

theorem keysNodup_localFold (L : List PipelineReference)
    (m : List (String × PipelineReference)) (h : (m.map Prod.fst).Nodup) :
    ((L.foldl
        (fun m ref =>
          if jsMapHas m (refKey ref) then m else jsMapSet m (refKey ref) ref)
        m).map Prod.fst).Nodup := by
  induction L generalizing m with
  | nil => exact h
  | cons l rest ih =>
    simp only [List.foldl_cons]
    by_cases hhas : jsMapHas m (refKey l) = true
    · rw [if_pos hhas]
      exact ih m h
    · rw [if_neg hhas]
      exact ih (jsMapSet m (refKey l) l) (keysNodup_jsMapSet m (refKey l) l h)

theorem filter_keys_length_one (m : List (String × PipelineReference))
    (k : String) (hnd : (m.map Prod.fst).Nodup)
    (hs : (jsMapGet m k).isSome = true) :
    (m.filter (fun p => p.1 == k)).length = 1 := by
  induction m with
  | nil => simp [jsMapGet] at hs
  | cons q rest ih =>
    simp only [List.map_cons, List.nodup_cons] at hnd
    by_cases hq : (q.1 == k) = true
    · have : rest.filter (fun p => p.1 == k) = [] := by
        rw [List.filter_eq_nil_iff]
        intro p hp hpk
        exact hnd.1 (by
          rw [beq_iff_eq] at hq hpk
          rw [hq, ← hpk]
          exact List.mem_map.mpr ⟨p, hp, rfl⟩)
      simp [List.filter_cons, hq, this]
    · have hs' : (jsMapGet rest k).isSome = true := by
        unfold jsMapGet at hs ⊢
        rwa [@List.find?_cons_of_neg (String × PipelineReference)
          (fun x => x.1 == k) q rest hq] at hs
      simp only [List.filter_cons, hq]
      simp only [Bool.false_eq_true, if_neg (by simp : ¬ False)]
      exact ih hnd.2 hs'

theorem filter_values_eq (m : List (String × PipelineReference)) (k : String)
    (hco : ∀ p ∈ m, refKey p.2 = p.1) :
    (m.map (·.2)).filter (fun r => refKey r == k) =
      (m.filter (fun p => p.1 == k)).map (·.2) := by
  induction m with
  | nil => rfl
  | cons q rest ih =>
    have hq : refKey q.2 = q.1 := hco q (List.mem_cons_self q rest)
    have ih' := ih (fun p hp => hco p (List.mem_cons_of_mem q hp))
    by_cases hk : (q.1 == k) = true
    · simp only [List.map_cons, List.filter_cons, hq, hk]
      simp [ih']
    · simp only [List.map_cons, List.filter_cons, hq, hk]
      simp [ih', hk]

theorem backfillUpdate_targetRepo (rv : List (String × VersionInfo))
    (d : String × String) (r : PipelineReference) :
    (backfillUpdate rv d r).targetRepo = r.targetRepo := by
  unfold backfillUpdate
  split <;> rfl

theorem backfillUpdate_of_truthy (rv : List (String × VersionInfo))
    (d : String × String) (r : PipelineReference)
    (h : truthy r.targetVersion = true) : backfillUpdate rv d r = r := by
  unfold backfillUpdate
  rw [h]
  simp

theorem backfillUpdate_updates (rv : List (String × VersionInfo))
    (d : String × String) (r : PipelineReference) (vinfo : VersionInfo)
    (h1 : r.targetRepo = some d.1) (h2 : truthy r.targetVersion = false)
    (h3 : jsMapGet rv d.1 = some vinfo) (h4 : vinfo.version ≠ "") :
    backfillUpdate rv d r = withVersion r vinfo := by
  unfold backfillUpdate withVersion
  rw [h3]
  simp [declHasVersion, h1, h2, h4]

theorem backfillUpdate_other_alias (rv : List (String × VersionInfo))
    (d : String × String) (r : PipelineReference) (a : String)
    (h1 : r.targetRepo = some a) (h2 : d.1 ≠ a) :
    backfillUpdate rv d r = r := by
  unfold backfillUpdate
  have hb : (r.targetRepo == some d.1) = false := by
    rw [h1, beq_eq_false_iff_ne]
    intro hh
    exact h2 (Option.some.inj hh).symm
  simp [hb]

theorem backfillUpdate_keeps_truthy (rv : List (String × VersionInfo))
    (d : String × String) (r : PipelineReference) :
    backfillUpdate rv d r = r ∨
      truthy (backfillUpdate rv d r).targetVersion = true := by
  unfold backfillUpdate
  split
  · right
    rename_i hcond
    simp only [Bool.and_eq_true] at hcond
    have hC := hcond.2
    cases hv : jsMapGet rv d.1 with
    | none => rw [hv] at hC; simp [declHasVersion] at hC
    | some vi =>
      rw [hv] at hC
      have hne : vi.version ≠ "" := by simpa [declHasVersion] using hC
      simp [truthy, hne]
  · left
    rfl

theorem declRef_targetRepo (fp : String) (rv : List (String × VersionInfo))
    (d : String × String) : (declRef fp rv d).targetRepo = some d.1 := rfl

theorem declRef_truthy (fp : String) (rv : List (String × VersionInfo))
    (d : String × String) (vinfo : VersionInfo) (ha : jsMapGet rv d.1 = some vinfo)
    (hne : vinfo.version ≠ "") :
    truthy (declRef fp rv d).targetVersion = true := by
  unfold declRef
  rw [ha]
  simp [declHasVersion, truthy, hne]

theorem backfill_persist (fp : String) (rv : List (String × VersionInfo))
    (decls : List (String × String)) (u : PipelineReference)
    (ht : truthy u.targetVersion = true) :
    ∀ refs : List PipelineReference, u ∈ refs →
      u ∈ decls.foldl (applyRepositoryDeclaration fp rv) refs := by
  induction decls with
  | nil => intro refs hu; exact hu
  | cons d rest ih =>
    intro refs hu
    simp only [List.foldl_cons]
    apply ih
    unfold applyRepositoryDeclaration
    exact List.mem_map.mpr
      ⟨u, List.mem_append_left _ hu, backfillUpdate_of_truthy rv d u ht⟩

theorem backfill_update_mem (fp : String) (rv : List (String × VersionInfo))
    (a n' : String) (vinfo : VersionInfo) (r : PipelineReference)
    (hv : jsMapGet rv a = some vinfo) (hne : vinfo.version ≠ "")
    (hrepo : r.targetRepo = some a) (hempty : truthy r.targetVersion = false) :
    ∀ (decls : List (String × String)) (refs : List PipelineReference),
      (a, n') ∈ decls → r ∈ refs →
      withVersion r vinfo ∈
        decls.foldl (applyRepositoryDeclaration fp rv) refs := by
  intro decls
  induction decls with
  | nil => intro refs hd; cases hd
  | cons d rest ih =>
    intro refs hd hr
    simp only [List.foldl_cons]
    by_cases ha : d.1 = a
    · have hupd : backfillUpdate rv d r = withVersion r vinfo :=
        backfillUpdate_updates rv d r vinfo (ha ▸ hrepo) hempty (ha ▸ hv) hne
      have hmem : withVersion r vinfo ∈
          applyRepositoryDeclaration fp rv refs d := by
        unfold applyRepositoryDeclaration
        exact List.mem_map.mpr ⟨r, List.mem_append_left _ hr, hupd⟩
      exact backfill_persist fp rv rest _ (by simp [withVersion, truthy, hne]) _ hmem
    · have hd' : (a, n') ∈ rest := by
        rcases List.mem_cons.mp hd with h1 | h2
        · exact absurd (congrArg Prod.fst h1).symm ha
        · exact h2
      apply ih _ hd'
      unfold applyRepositoryDeclaration
      exact List.mem_map.mpr
        ⟨r, List.mem_append_left _ hr, backfillUpdate_other_alias rv d r a hrepo ha⟩

theorem backfill_preserves_alias_truthy (fp : String)
    (rv : List (String × VersionInfo)) (a : String) (vinfo : VersionInfo)
    (hv : jsMapGet rv a = some vinfo) (hne : vinfo.version ≠ "") :
    ∀ (decls : List (String × String)) (refs : List PipelineReference),
      (∀ r ∈ refs, r.targetRepo = some a → truthy r.targetVersion = true) →
      ∀ r ∈ decls.foldl (applyRepositoryDeclaration fp rv) refs,
        r.targetRepo = some a → truthy r.targetVersion = true := by
  intro decls
  induction decls with
  | nil => intro refs hP; exact hP
  | cons d rest ih =>
    intro refs hP
    simp only [List.foldl_cons]
    apply ih
    intro r hr hrepo
    obtain ⟨x, hx, hxe⟩ := List.mem_map.mp hr
    subst hxe
    rw [backfillUpdate_targetRepo] at hrepo
    rcases backfillUpdate_keeps_truthy rv d x with heq | htr
    · rw [heq]
      rcases List.mem_append.mp hx with hxr | hxd
      · exact hP x hxr hrepo
      · simp only [List.mem_singleton] at hxd
        subst hxd
        rw [declRef_targetRepo] at hrepo
        have ha : d.1 = a := by injection hrepo
        exact declRef_truthy fp rv d vinfo (ha ▸ hv) hne
    · exact htr

theorem backfill_establishes_alias_truthy (fp : String)
    (rv : List (String × VersionInfo)) (a n' : String) (vinfo : VersionInfo)
    (hv : jsMapGet rv a = some vinfo) (hne : vinfo.version ≠ "") :
    ∀ (decls : List (String × String)) (refs : List PipelineReference),
      (a, n') ∈ decls →
      ∀ r ∈ decls.foldl (applyRepositoryDeclaration fp rv) refs,
        r.targetRepo = some a → truthy r.targetVersion = true := by
  intro decls
  induction decls with
  | nil => intro refs hd; cases hd
  | cons d rest ih =>
    intro refs hd
    simp only [List.foldl_cons]
    by_cases ha : d.1 = a
    · apply backfill_preserves_alias_truthy fp rv a vinfo hv hne rest
      intro r hr hrepo
      obtain ⟨x, hx, hxe⟩ := List.mem_map.mp hr
      subst hxe
      rw [backfillUpdate_targetRepo] at hrepo
      by_cases ht : truthy x.targetVersion = true
      · rw [backfillUpdate_of_truthy rv d x ht]
        exact ht
      · have := backfillUpdate_updates rv d x vinfo (ha ▸ hrepo)
          (by simpa using ht) (ha ▸ hv) hne
        rw [this]
        simp [withVersion, truthy, hne]
    · have hd' : (a, n') ∈ rest := by
        rcases List.mem_cons.mp hd with h1 | h2
        · exact absurd (congrArg Prod.fst h1).symm ha
        · exact h2
      exact ih _ hd'

theorem jsMapHas_of_get_some {α : Type} (m : List (String × α)) (k : String)
    (v : α) (h : jsMapGet m k = some v) : jsMapHas m k = true := by
  unfold jsMapGet at h
  cases hf : m.find? (fun p => p.1 == k) with
  | none => rw [hf] at h; cases h
  | some p =>
    have hm := List.mem_of_find?_eq_some hf
    have hk := List.find?_some hf
    exact List.any_eq_true.mpr ⟨p, hm, hk⟩

theorem isSome_get_jsMapSet {α : Type} (m : List (String × α)) (k n : String)
    (v : α) (h : (jsMapGet m n).isSome = true) :
    (jsMapGet (jsMapSet m k v) n).isSome = true := by
  by_cases hk : n = k
  · subst hk
    rw [jsMapGet_jsMapSet_self]
    rfl
  · rw [jsMapGet_jsMapSet_ne m k n v hk]
    exact h

theorem isSome_get_jsMapSet_self {α : Type} (m : List (String × α))
    (k : String) (v : α) : (jsMapGet (jsMapSet m k v) k).isSome = true := by
  rw [jsMapGet_jsMapSet_self]
  rfl

theorem jsMapSet_eq_self {α : Type} (m : List (String × α)) (k : String)
    (v : α) (hnd : (m.map Prod.fst).Nodup) (hget : jsMapGet m k = some v) :
    jsMapSet m k v = m := by
  unfold jsMapSet
  rw [if_pos (jsMapHas_of_get_some m k v hget)]
  have : ∀ p ∈ m, (if p.1 == k then (k, v) else p) = p := by
    intro p hp
    by_cases hk : (p.1 == k) = true
    · rw [if_pos hk]
      have h1 : p.1 = k := beq_iff_eq.mp hk
      have h2 := jsMapGet_of_mem_nodup m hnd p hp
      rw [h1, hget] at h2
      have h3 : v = p.2 := by injection h2
      rw [← h1, h3]
    · rw [if_neg hk]
  calc m.map (fun p => if p.1 == k then (k, v) else p) = m.map id := by
        apply List.map_congr_left
        intro p hp
        rw [this p hp]
        rfl
    _ = m := List.map_id m

theorem mem_setAdd_self (s : List String) (x : String) : x ∈ setAdd s x := by
  unfold setAdd
  split
  · assumption
  · exact List.mem_append_right s (List.mem_singleton.mpr rfl)

theorem mem_setAdd_of_mem (s : List String) (x y : String) (h : y ∈ s) :
    y ∈ setAdd s x := by
  unfold setAdd
  split
  · exact h
  · exact List.mem_append_left _ h

theorem setAdd_eq_of_mem (s : List String) (x : String) (h : x ∈ s) :
    setAdd s x = s := by
  unfold setAdd
  rw [if_pos h]

theorem setAdd_nodup (s : List String) (x : String) (h : s.Nodup) :
    (setAdd s x).Nodup := by
  unfold setAdd
  split
  · exact h
  · next hx =>
    exact List.Nodup.append h (List.nodup_singleton x)
      (fun a ha hb => hx (List.mem_singleton.mp hb ▸ ha))

theorem foldl_setAdd_mem (l acc : List String) (x : String) :
    x ∈ l.foldl setAdd acc ↔ x ∈ acc ∨ x ∈ l := by
  induction l generalizing acc with
  | nil => simp
  | cons y rest ih =>
    simp only [List.foldl_cons, ih, List.mem_cons]
    constructor
    · rintro (h | h)
      · unfold setAdd at h
        split at h
        · exact Or.inl h
        · rcases List.mem_append.mp h with h1 | h2
          · exact Or.inl h1
          · exact Or.inr (Or.inl (List.mem_singleton.mp h2))
      · exact Or.inr (Or.inr h)
    · rintro (h | h | h)
      · exact Or.inl (mem_setAdd_of_mem acc y x h)
      · exact Or.inl (h ▸ mem_setAdd_self acc y)
      · exact Or.inr h

theorem mem_setOfList (l : List String) (x : String) :
    x ∈ setOfList l ↔ x ∈ l := by
  unfold setOfList
  rw [foldl_setAdd_mem]
  simp

theorem foldl_setAdd_nodup (l acc : List String) (h : acc.Nodup) :
    (l.foldl setAdd acc).Nodup := by
  induction l generalizing acc with
  | nil => exact h
  | cons y rest ih =>
    exact ih (setAdd acc y) (setAdd_nodup acc y h)

theorem setOfList_nodup (l : List String) : (setOfList l).Nodup :=
  foldl_setAdd_nodup l [] List.nodup_nil

theorem foldl_setAdd_of_disjoint (l acc : List String) (hl : l.Nodup)
    (hd : ∀ x ∈ l, x ∉ acc) : l.foldl setAdd acc = acc ++ l := by
  induction l generalizing acc with
  | nil => simp
  | cons y rest ih =>
    simp only [List.foldl_cons]
    have hy : y ∉ acc := hd y (List.mem_cons_self y rest)
    have hadd : setAdd acc y = acc ++ [y] := by
      unfold setAdd
      rw [if_neg hy]
    rw [hadd]
    rw [ih (acc ++ [y]) (List.nodup_cons.mp hl).2]
    · simp
    · intro x hx
      intro hmem
      rcases List.mem_append.mp hmem with h1 | h2
      · exact hd x (List.mem_cons_of_mem y hx) h1
      · exact (List.nodup_cons.mp hl).1 (List.mem_singleton.mp h2 ▸ hx)

theorem setOfList_eq_of_nodup (l : List String) (h : l.Nodup) :
    setOfList l = l := by
  unfold setOfList
  rw [foldl_setAdd_of_disjoint l [] h (fun x _ hx => (List.not_mem_nil x) hx)]
  simp

theorem mem_jsMapSet {α : Type} (m : List (String × α)) (k : String) (v : α)
    (q : String × α) (hq : q ∈ jsMapSet m k v) : q = (k, v) ∨ q ∈ m := by
  unfold jsMapSet at hq
  split at hq
  · obtain ⟨p, hp, hpe⟩ := List.mem_map.mp hq
    by_cases hk : (p.1 == k) = true
    · rw [if_pos hk] at hpe
      exact Or.inl hpe.symm
    · rw [if_neg hk] at hpe
      exact Or.inr (hpe ▸ hp)
  · rcases List.mem_append.mp hq with h1 | h2
    · exact Or.inr h1
    · exact Or.inl (List.mem_singleton.mp h2)

theorem get_some_mem_value {α : Type} (m : List (String × α)) (k : String)
    (s : α) (h : jsMapGet m k = some s) : ∃ p ∈ m, p.2 = s := by
  unfold jsMapGet at h
  cases hf : m.find? (fun p => p.1 == k) with
  | none => rw [hf] at h; cases h
  | some p =>
    rw [hf] at h
    refine ⟨p, List.mem_of_find?_eq_some hf, ?_⟩
    injection h

theorem get_addAlias_self (d : List (String × List String)) (tn al : String) :
    jsMapGet (addAlias d tn al) tn =
      some (setAdd ((jsMapGet d tn).getD []) al) :=
  jsMapGet_jsMapSet_self d tn _

theorem get_addAlias_ne (d : List (String × List String)) (tn al n : String)
    (h : n ≠ tn) : jsMapGet (addAlias d tn al) n = jsMapGet d n :=
  jsMapGet_jsMapSet_ne d tn n _ h

theorem addAlias_grow (d : List (String × List String)) (tn al n y : String)
    (h : y ∈ (jsMapGet d n).getD []) :
    y ∈ (jsMapGet (addAlias d tn al) n).getD [] := by
  by_cases hn : n = tn
  · subst hn
    rw [get_addAlias_self]
    exact mem_setAdd_of_mem _ al y h
  · rw [get_addAlias_ne d tn al n hn]
    exact h

theorem addAlias_mem (d : List (String × List String)) (tn al : String) :
    al ∈ (jsMapGet (addAlias d tn al) tn).getD [] := by
  rw [get_addAlias_self]
  exact mem_setAdd_self _ al

theorem addAlias_noop (d : List (String × List String)) (tn al : String)
    (hnd : (d.map Prod.fst).Nodup) (h : al ∈ (jsMapGet d tn).getD []) :
    addAlias d tn al = d := by
  unfold addAlias
  cases hg : jsMapGet d tn with
  | none => rw [hg] at h; cases h
  | some s =>
    rw [hg] at h
    simp only [Option.getD_some] at h ⊢
    rw [setAdd_eq_of_mem s al h]
    exact jsMapSet_eq_self d tn s hnd hg

theorem keysNodup_addAlias (d : List (String × List String)) (tn al : String)
    (h : (d.map Prod.fst).Nodup) :
    ((addAlias d tn al).map Prod.fst).Nodup :=
  keysNodup_jsMapSet d tn _ h

theorem isSome_get_addAlias (d : List (String × List String)) (tn al n : String)
    (h : (jsMapGet d n).isSome = true) :
    (jsMapGet (addAlias d tn al) n).isSome = true :=
  isSome_get_jsMapSet d tn n _ h

theorem valuesNodup_addAlias (d : List (String × List String)) (tn al : String)
    (h : ∀ p ∈ d, p.2.Nodup) : ∀ p ∈ addAlias d tn al, p.2.Nodup := by
  intro q hq
  rcases mem_jsMapSet d tn _ q hq with h1 | h2
  · subst h1
    simp only
    apply setAdd_nodup
    cases hg : jsMapGet d tn with
    | none => simp
    | some s =>
      simp only [Option.getD_some]
      obtain ⟨p, hp, hpe⟩ := get_some_mem_value d tn s hg
      exact hpe ▸ h p hp
  · exact h q h2

theorem addDeclAliases_grow (nm : List (String × RepoConfig))
    (repos : List (String × String)) (n y : String) :
    ∀ d, y ∈ (jsMapGet d n).getD [] →
      y ∈ (jsMapGet (addDeclAliases nm d repos) n).getD [] := by
  induction repos with
  | nil => intro d h; exact h
  | cons decl rest ih =>
    intro d h
    unfold addDeclAliases
    simp only [List.foldl_cons]
    cases hr : jsMapGet nm decl.2 with
    | none => exact ih d h
    | some t => exact ih _ (addAlias_grow d t.name decl.1 n y h)

theorem addDeclAliases_keysNodup (nm : List (String × RepoConfig))
    (repos : List (String × String)) :
    ∀ d, (d.map Prod.fst).Nodup →
      ((addDeclAliases nm d repos).map Prod.fst).Nodup := by
  induction repos with
  | nil => intro d h; exact h
  | cons decl rest ih =>
    intro d h
    unfold addDeclAliases
    simp only [List.foldl_cons]
    cases hr : jsMapGet nm decl.2 with
    | none => exact ih d h
    | some t => exact ih _ (keysNodup_addAlias d t.name decl.1 h)

theorem addDeclAliases_isSome (nm : List (String × RepoConfig))
    (repos : List (String × String)) (n : String) :
    ∀ d, (jsMapGet d n).isSome = true →
      (jsMapGet (addDeclAliases nm d repos) n).isSome = true := by
  induction repos with
  | nil => intro d h; exact h
  | cons decl rest ih =>
    intro d h
    unfold addDeclAliases
    simp only [List.foldl_cons]
    cases hr : jsMapGet nm decl.2 with
    | none => exact ih d h
    | some t => exact ih _ (isSome_get_addAlias d t.name decl.1 n h)

theorem addDeclAliases_valuesNodup (nm : List (String × RepoConfig))
    (repos : List (String × String)) :
    ∀ d, (∀ p ∈ d, p.2.Nodup) →
      ∀ p ∈ addDeclAliases nm d repos, p.2.Nodup := by
  induction repos with
  | nil => intro d h; exact h
  | cons decl rest ih =>
    intro d h
    unfold addDeclAliases
    simp only [List.foldl_cons]
    cases hr : jsMapGet nm decl.2 with
    | none => exact ih d h
    | some t => exact ih _ (valuesNodup_addAlias d t.name decl.1 h)

theorem addDeclAliases_present (nm : List (String × RepoConfig))
    (repos : List (String × String)) (decl : String × String)
    (t : RepoConfig) (hres : jsMapGet nm decl.2 = some t) :
    ∀ d, decl ∈ repos →
      decl.1 ∈ (jsMapGet (addDeclAliases nm d repos) t.name).getD [] := by
  induction repos with
  | nil => intro d h; cases h
  | cons hd rest ih =>
    intro d hmem
    unfold addDeclAliases
    simp only [List.foldl_cons]
    rcases List.mem_cons.mp hmem with h1 | h2
    · subst h1
      rw [hres]
      exact addDeclAliases_grow nm rest t.name decl.1 _
        (addAlias_mem d t.name decl.1)
    · cases hr : jsMapGet nm hd.2 with
      | none => exact ih d h2
      | some t2 => exact ih _ h2

theorem addDeclAliases_noop (nm : List (String × RepoConfig))
    (repos : List (String × String)) :
    ∀ d, (d.map Prod.fst).Nodup →
      (∀ decl ∈ repos, ∀ t, jsMapGet nm decl.2 = some t →
        decl.1 ∈ (jsMapGet d t.name).getD []) →
      addDeclAliases nm d repos = d := by
  induction repos with
  | nil => intro d _ _; rfl
  | cons decl rest ih =>
    intro d hnd h
    cases hr : jsMapGet nm decl.2 with
    | none =>
      have hstep : addDeclAliases nm d (decl :: rest) =
          addDeclAliases nm d rest := by
        unfold addDeclAliases
        simp only [List.foldl_cons, hr]
      rw [hstep]
      exact ih d hnd (fun dl hdl => h dl (List.mem_cons_of_mem decl hdl))
    | some t =>
      have hstep : addDeclAliases nm d (decl :: rest) =
          addDeclAliases nm (addAlias d t.name decl.1) rest := by
        unfold addDeclAliases
        simp only [List.foldl_cons, hr]
      rw [hstep, addAlias_noop d t.name decl.1 hnd
        (h decl (List.mem_cons_self decl rest) t hr)]
      exact ih d hnd (fun dl hdl => h dl (List.mem_cons_of_mem decl hdl))

theorem scanRepoFiles_grow (env : Env) (nm : List (String × RepoConfig))
    (files : List String) (n y : String) :
    ∀ d, y ∈ (jsMapGet d n).getD [] →
      y ∈ (jsMapGet (scanRepoFiles env nm d files) n).getD [] := by
  induction files with
  | nil => intro d h; exact h
  | cons fp rest ih =>
    intro d h
    unfold scanRepoFiles
    simp only [List.foldl_cons]
    cases hx : env.extractDecls (env.readFileContent fp) with
    | error e => exact ih d h
    | ok dres => exact ih _ (addDeclAliases_grow nm dres.repos n y d h)

theorem scanRepoFiles_keysNodup (env : Env) (nm : List (String × RepoConfig))
    (files : List String) :
    ∀ d, (d.map Prod.fst).Nodup →
      ((scanRepoFiles env nm d files).map Prod.fst).Nodup := by
  induction files with
  | nil => intro d h; exact h
  | cons fp rest ih =>
    intro d h
    unfold scanRepoFiles
    simp only [List.foldl_cons]
    cases hx : env.extractDecls (env.readFileContent fp) with
    | error e => exact ih d h
    | ok dres => exact ih _ (addDeclAliases_keysNodup nm dres.repos d h)

theorem scanRepoFiles_isSome (env : Env) (nm : List (String × RepoConfig))
    (files : List String) (n : String) :
    ∀ d, (jsMapGet d n).isSome = true →
      (jsMapGet (scanRepoFiles env nm d files) n).isSome = true := by
  induction files with
  | nil => intro d h; exact h
  | cons fp rest ih =>
    intro d h
    unfold scanRepoFiles
    simp only [List.foldl_cons]
    cases hx : env.extractDecls (env.readFileContent fp) with
    | error e => exact ih d h
    | ok dres => exact ih _ (addDeclAliases_isSome nm dres.repos n d h)

theorem scanRepoFiles_valuesNodup (env : Env) (nm : List (String × RepoConfig))
    (files : List String) :
    ∀ d, (∀ p ∈ d, p.2.Nodup) →
      ∀ p ∈ scanRepoFiles env nm d files, p.2.Nodup := by
  induction files with
  | nil => intro d h; exact h
  | cons fp rest ih =>
    intro d h
    unfold scanRepoFiles
    simp only [List.foldl_cons]
    cases hx : env.extractDecls (env.readFileContent fp) with
    | error e => exact ih d h
    | ok dres => exact ih _ (addDeclAliases_valuesNodup nm dres.repos d h)

theorem scanRepoFiles_present (env : Env) (nm : List (String × RepoConfig))
    (files : List String) (fp : String) (dres : DeclResult)
    (decl : String × String) (t : RepoConfig)
    (hx : env.extractDecls (env.readFileContent fp) = .ok dres)
    (hdecl : decl ∈ dres.repos) (hres : jsMapGet nm decl.2 = some t) :
    ∀ d, fp ∈ files →
      decl.1 ∈ (jsMapGet (scanRepoFiles env nm d files) t.name).getD [] := by
  induction files with
  | nil => intro d h; cases h
  | cons f rest ih =>
    intro d hmem
    rcases List.mem_cons.mp hmem with h1 | h2
    · subst h1
      have hstep : scanRepoFiles env nm d (fp :: rest) =
          scanRepoFiles env nm (addDeclAliases nm d dres.repos) rest := by
        unfold scanRepoFiles
        simp only [List.foldl_cons, hx]
      rw [hstep]
      exact scanRepoFiles_grow env nm rest t.name decl.1 _
        (addDeclAliases_present nm dres.repos decl t hres d hdecl)
    · cases hx2 : env.extractDecls (env.readFileContent f) with
      | error e =>
        have hstep : scanRepoFiles env nm d (f :: rest) =
            scanRepoFiles env nm d rest := by
          unfold scanRepoFiles
          simp only [List.foldl_cons, hx2]
        rw [hstep]
        exact ih d h2
      | ok dres2 =>
        have hstep : scanRepoFiles env nm d (f :: rest) =
            scanRepoFiles env nm (addDeclAliases nm d dres2.repos) rest := by
          unfold scanRepoFiles
          simp only [List.foldl_cons, hx2]
        rw [hstep]
        exact ih _ h2

theorem scanRepoFiles_noop (env : Env) (nm : List (String × RepoConfig))
    (files : List String) :
    ∀ d, (d.map Prod.fst).Nodup →
      (∀ fp ∈ files, ∀ dres,
        env.extractDecls (env.readFileContent fp) = .ok dres →
        ∀ decl ∈ dres.repos, ∀ t, jsMapGet nm decl.2 = some t →
          decl.1 ∈ (jsMapGet d t.name).getD []) →
      scanRepoFiles env nm d files = d := by
  induction files with
  | nil => intro d _ _; rfl
  | cons fp rest ih =>
    intro d hnd h
    cases hx : env.extractDecls (env.readFileContent fp) with
    | error e =>
      have hstep : scanRepoFiles env nm d (fp :: rest) =
          scanRepoFiles env nm d rest := by
        unfold scanRepoFiles
        simp only [List.foldl_cons, hx]
      rw [hstep]
      exact ih d hnd (fun f hf => h f (List.mem_cons_of_mem fp hf))
    | ok dres =>
      have hstep : scanRepoFiles env nm d (fp :: rest) =
          scanRepoFiles env nm (addDeclAliases nm d dres.repos) rest := by
        unfold scanRepoFiles
        simp only [List.foldl_cons, hx]
      rw [hstep, addDeclAliases_noop nm dres.repos d hnd
        (fun decl hdecl t ht =>
          h fp (List.mem_cons_self fp rest) dres hx decl hdecl t ht)]
      exact ih d hnd (fun f hf => h f (List.mem_cons_of_mem fp hf))

theorem scanAllPure_grow (env : Env) (nm : List (String × RepoConfig))
    (cfgs : List RepoConfig) (n y : String) :
    ∀ d, y ∈ (jsMapGet d n).getD [] →
      y ∈ (jsMapGet (scanAllPure env nm cfgs d) n).getD [] := by
  induction cfgs with
  | nil => intro d h; exact h
  | cons r rest ih =>
    intro d h
    unfold scanAllPure
    simp only [List.foldl_cons]
    exact ih _ (scanRepoFiles_grow env nm (filesOf env r.path) n y d h)

theorem scanAllPure_keysNodup (env : Env) (nm : List (String × RepoConfig))
    (cfgs : List RepoConfig) :
    ∀ d, (d.map Prod.fst).Nodup →
      ((scanAllPure env nm cfgs d).map Prod.fst).Nodup := by
  induction cfgs with
  | nil => intro d h; exact h
  | cons r rest ih =>
    intro d h
    unfold scanAllPure
    simp only [List.foldl_cons]
    exact ih _ (scanRepoFiles_keysNodup env nm (filesOf env r.path) d h)

theorem scanAllPure_isSome (env : Env) (nm : List (String × RepoConfig))
    (cfgs : List RepoConfig) (n : String) :
    ∀ d, (jsMapGet d n).isSome = true →
      (jsMapGet (scanAllPure env nm cfgs d) n).isSome = true := by
  induction cfgs with
  | nil => intro d h; exact h
  | cons r rest ih =>
    intro d h
    unfold scanAllPure
    simp only [List.foldl_cons]
    exact ih _ (scanRepoFiles_isSome env nm (filesOf env r.path) n d h)

theorem scanAllPure_valuesNodup (env : Env) (nm : List (String × RepoConfig))
    (cfgs : List RepoConfig) :
    ∀ d, (∀ p ∈ d, p.2.Nodup) →
      ∀ p ∈ scanAllPure env nm cfgs d, p.2.Nodup := by
  induction cfgs with
  | nil => intro d h; exact h
  | cons r rest ih =>
    intro d h
    unfold scanAllPure
    simp only [List.foldl_cons]
    exact ih _ (scanRepoFiles_valuesNodup env nm (filesOf env r.path) d h)

theorem scanAllPure_present (env : Env) (nm : List (String × RepoConfig))
    (cfgs : List RepoConfig) (repo : RepoConfig) (fp : String)
    (dres : DeclResult) (decl : String × String) (t : RepoConfig)
    (hrepo : repo ∈ cfgs) (hfp : fp ∈ filesOf env repo.path)
    (hx : env.extractDecls (env.readFileContent fp) = .ok dres)
    (hdecl : decl ∈ dres.repos) (hres : jsMapGet nm decl.2 = some t) :
    ∀ d, decl.1 ∈ (jsMapGet (scanAllPure env nm cfgs d) t.name).getD [] := by
  induction cfgs with
  | nil => cases hrepo
  | cons r rest ih =>
    intro d
    unfold scanAllPure
    simp only [List.foldl_cons]
    rcases List.mem_cons.mp hrepo with h1 | h2
    · subst h1
      exact scanAllPure_grow env nm rest t.name decl.1 _
        (scanRepoFiles_present env nm (filesOf env repo.path) fp dres decl t
          hx hdecl hres d hfp)
    · exact ih h2 _

theorem scanAllPure_noop (env : Env) (nm : List (String × RepoConfig))
    (cfgs : List RepoConfig) :
    ∀ d, (d.map Prod.fst).Nodup →
      (∀ repo ∈ cfgs, ∀ fp ∈ filesOf env repo.path, ∀ dres,
        env.extractDecls (env.readFileContent fp) = .ok dres →
        ∀ decl ∈ dres.repos, ∀ t, jsMapGet nm decl.2 = some t →
          decl.1 ∈ (jsMapGet d t.name).getD []) →
      scanAllPure env nm cfgs d = d := by
  induction cfgs with
  | nil => intro d _ _; rfl
  | cons r rest ih =>
    intro d hnd h
    unfold scanAllPure
    simp only [List.foldl_cons]
    rw [scanRepoFiles_noop env nm (filesOf env r.path) d hnd
      (h r (List.mem_cons_self r rest))]
    exact ih d hnd (fun repo hrepo => h repo (List.mem_cons_of_mem r hrepo))

theorem buildFold_values (l : List RepoConfig) :
    ∀ m, ∀ p ∈ l.foldl (fun m repo =>
      let m := jsMapSet m repo.name repo
      let normalizedName := jsSplitSlashLast repo.name
      if normalizedName ≠ repo.name then jsMapSet m normalizedName repo
      else m) m, p ∈ m ∨ p.2 ∈ l := by
  induction l with
  | nil => intro m p hp; exact Or.inl hp
  | cons r rest ih =>
    intro m p hp
    simp only [List.foldl_cons] at hp
    rcases ih _ p hp with h1 | h2
    · by_cases hn : (jsSplitSlashLast r.name ≠ r.name)
      · rw [if_pos hn] at h1
        rcases mem_jsMapSet _ _ _ p h1 with ha | hb
        · exact Or.inr (by rw [ha]; exact List.mem_cons_self r rest)
        · rcases mem_jsMapSet _ _ _ p hb with hc | hd
          · exact Or.inr (by rw [hc]; exact List.mem_cons_self r rest)
          · exact Or.inl hd
      · rw [if_neg hn] at h1
        rcases mem_jsMapSet _ _ _ p h1 with ha | hb
        · exact Or.inr (by rw [ha]; exact List.mem_cons_self r rest)
        · exact Or.inl hb
    · exact Or.inr (List.mem_cons_of_mem r h2)

theorem buildRepoNameMap_values (cfgs : List RepoConfig) (x : String)
    (t : RepoConfig) (h : jsMapGet (buildRepoNameMap cfgs) x = some t) :
    t ∈ cfgs := by
  obtain ⟨p, hp, hpe⟩ := get_some_mem_value _ x t h
  rcases buildFold_values cfgs [] p hp with h1 | h2
  · cases h1
  · exact hpe ▸ h2

theorem jsMapHas_map_sec {α β : Type} (m : List (String × α)) (f : α → β)
    (k : String) :
    jsMapHas (m.map (fun p => (p.1, f p.2))) k = jsMapHas m k := by
  unfold jsMapHas
  induction m with
  | nil => rfl
  | cons p rest ih => simp only [List.map_cons, List.any_cons, ih]

theorem jsMapGet_map_sec {α β : Type} (m : List (String × α)) (f : α → β)
    (k : String) :
    jsMapGet (m.map (fun p => (p.1, f p.2))) k = (jsMapGet m k).map f := by
  unfold jsMapGet
  rw [List.find?_map]
  have : ((fun p : String × β => p.1 == k) ∘ fun p : String × α => (p.1, f p.2))
      = fun p : String × α => p.1 == k := rfl
  rw [this]
  cases m.find? (fun p => p.1 == k) <;> rfl

theorem jsMapSet_map_sec {α β : Type} (m : List (String × α)) (f : α → β)
    (k : String) (v : α) :
    jsMapSet (m.map (fun p => (p.1, f p.2))) k (f v) =
      (jsMapSet m k v).map (fun p => (p.1, f p.2)) := by
  unfold jsMapSet
  rw [jsMapHas_map_sec]
  by_cases hh : jsMapHas m k = true
  · rw [if_pos hh, if_pos hh]
    rw [List.map_map, List.map_map]
    apply List.map_congr_left
    intro p _
    by_cases hk : (p.1 == k) = true
    · simp only [Function.comp_apply, hk, if_pos]
    · simp only [Function.comp_apply, hk]
      rw [if_neg (by simp [hk]), if_neg (by simp [hk])]
  · rw [if_neg hh, if_neg hh]
    rw [List.map_append]
    rfl

theorem buildFold_map (f : RepoConfig → RepoConfig)
    (hname : ∀ r, (f r).name = r.name) (l : List RepoConfig) :
    ∀ m, (l.map f).foldl (fun m repo =>
      let m := jsMapSet m repo.name repo
      let normalizedName := jsSplitSlashLast repo.name
      if normalizedName ≠ repo.name then jsMapSet m normalizedName repo
      else m) (m.map (fun p => (p.1, f p.2))) =
    (l.foldl (fun m repo =>
      let m := jsMapSet m repo.name repo
      let normalizedName := jsSplitSlashLast repo.name
      if normalizedName ≠ repo.name then jsMapSet m normalizedName repo
      else m) m).map (fun p => (p.1, f p.2)) := by
  induction l with
  | nil => intro m; rfl
  | cons r rest ih =>
    intro m
    simp only [List.map_cons, List.foldl_cons]
    have hstep : (let m2 := jsMapSet (m.map (fun p => (p.1, f p.2))) (f r).name (f r)
        let normalizedName := jsSplitSlashLast (f r).name
        if normalizedName ≠ (f r).name then jsMapSet m2 normalizedName (f r)
        else m2) =
        ((let m2 := jsMapSet m r.name r
          let normalizedName := jsSplitSlashLast r.name
          if normalizedName ≠ r.name then jsMapSet m2 normalizedName r
          else m2).map (fun p => (p.1, f p.2))) := by
      simp only [hname r]
      by_cases hn : (jsSplitSlashLast r.name ≠ r.name)
      · rw [if_pos hn, if_pos hn]
        rw [jsMapSet_map_sec, jsMapSet_map_sec]
      · rw [if_neg hn, if_neg hn]
        rw [jsMapSet_map_sec]
    rw [hstep]
    exact ih _

theorem buildRepoNameMap_map (f : RepoConfig → RepoConfig)
    (hname : ∀ r, (f r).name = r.name) (cfgs : List RepoConfig) :
    buildRepoNameMap (cfgs.map f) =
      (buildRepoNameMap cfgs).map (fun p => (p.1, f p.2)) := by
  unfold buildRepoNameMap
  have := buildFold_map f hname cfgs []
  simpa using this

theorem initFold_get_of_no_name (l : List RepoConfig) (n : String)
    (h : ∀ r ∈ l, r.name ≠ n) :
    ∀ m, jsMapGet (l.foldl
        (fun m r => jsMapSet m r.name (setOfList r.aliases)) m) n =
      jsMapGet m n := by
  induction l with
  | nil => intro m; rfl
  | cons r rest ih =>
    intro m
    simp only [List.foldl_cons]
    rw [ih (fun x hx => h x (List.mem_cons_of_mem r hx))]
    exact jsMapGet_jsMapSet_ne m r.name n _
      (fun he => h r (List.mem_cons_self r rest) he.symm)

theorem initFold_get_uniform (l : List RepoConfig) (n : String) (s : List String)
    (huni : ∀ r ∈ l, r.name = n → r.aliases = s) (hex : ∃ r ∈ l, r.name = n) :
    ∀ m, jsMapGet (l.foldl
        (fun m r => jsMapSet m r.name (setOfList r.aliases)) m) n =
      some (setOfList s) := by
  induction l with
  | nil => obtain ⟨r, hr, -⟩ := hex; cases hr
  | cons r rest ih =>
    intro m
    simp only [List.foldl_cons]
    by_cases hrest : ∃ x ∈ rest, x.name = n
    · exact ih (fun x hx => huni x (List.mem_cons_of_mem r hx)) hrest _
    · push_neg at hrest
      have hr : r.name = n := by
        obtain ⟨x, hx, hxn⟩ := hex
        rcases List.mem_cons.mp hx with h1 | h2
        · exact h1 ▸ hxn
        · exact absurd hxn (hrest x h2)
      rw [initFold_get_of_no_name rest n hrest]
      rw [← hr]
      rw [jsMapGet_jsMapSet_self]
      rw [huni r (List.mem_cons_self r rest) hr]

theorem initFold_isSome (l : List RepoConfig) (n : String) :
    ∀ m, (jsMapGet m n).isSome = true →
      (jsMapGet (l.foldl
        (fun m r => jsMapSet m r.name (setOfList r.aliases)) m) n).isSome =
        true := by
  induction l with
  | nil => intro m h; exact h
  | cons r rest ih =>
    intro m h
    simp only [List.foldl_cons]
    exact ih _ (isSome_get_jsMapSet m r.name n _ h)

theorem initFold_domain (l : List RepoConfig) (repo : RepoConfig)
    (hrepo : repo ∈ l) :
    ∀ m, (jsMapGet (l.foldl
        (fun m r => jsMapSet m r.name (setOfList r.aliases)) m)
      repo.name).isSome = true := by
  induction l with
  | nil => cases hrepo
  | cons r rest ih =>
    intro m
    simp only [List.foldl_cons]
    rcases List.mem_cons.mp hrepo with h1 | h2
    · subst h1
      exact initFold_isSome rest repo.name _
        (isSome_get_jsMapSet_self m repo.name _)
    · exact ih h2 _

theorem initialAliasMap_keysNodup (cfgs : List RepoConfig) :
    ((initialAliasMap cfgs).map Prod.fst).Nodup := by
  unfold initialAliasMap
  have : ∀ (l : List RepoConfig) (m : List (String × List String)),
      (m.map Prod.fst).Nodup →
      ((l.foldl (fun m r => jsMapSet m r.name (setOfList r.aliases)) m).map
        Prod.fst).Nodup := by
    intro l
    induction l with
    | nil => intro m h; exact h
    | cons r rest ih =>
      intro m h
      simp only [List.foldl_cons]
      exact ih _ (keysNodup_jsMapSet m r.name _ h)
  exact this cfgs [] (by simp)

theorem initialAliasMap_valuesNodup (cfgs : List RepoConfig) :
    ∀ p ∈ initialAliasMap cfgs, p.2.Nodup := by
  unfold initialAliasMap
  have : ∀ (l : List RepoConfig) (m : List (String × List String)),
      (∀ p ∈ m, p.2.Nodup) →
      ∀ p ∈ l.foldl (fun m r => jsMapSet m r.name (setOfList r.aliases)) m,
        p.2.Nodup := by
    intro l
    induction l with
    | nil => intro m h; exact h
    | cons r rest ih =>
      intro m h
      simp only [List.foldl_cons]
      apply ih
      intro p hp
      rcases mem_jsMapSet m r.name _ p hp with h1 | h2
      · rw [h1]
        exact setOfList_nodup r.aliases
      · exact h p h2
  exact this cfgs [] (by intro p hp; cases hp)

theorem applyDiscovered_name (d : List (String × List String))
    (repo : RepoConfig) : (applyDiscovered d repo).name = repo.name := by
  unfold applyDiscovered
  cases jsMapGet d repo.name <;> rfl

theorem applyDiscovered_path (d : List (String × List String))
    (repo : RepoConfig) : (applyDiscovered d repo).path = repo.path := by
  unfold applyDiscovered
  cases jsMapGet d repo.name <;> rfl

theorem applyDiscovered_aliases (d : List (String × List String))
    (repo : RepoConfig) (s : List String) (h : jsMapGet d repo.name = some s) :
    (applyDiscovered d repo).aliases = s := by
  unfold applyDiscovered
  rw [h]

theorem addDeclAliases_congr (nm nm2 : List (String × RepoConfig))
    (hg : ∀ x, (jsMapGet nm2 x).map (·.name) = (jsMapGet nm x).map (·.name))
    (repos : List (String × String)) :
    ∀ d, addDeclAliases nm2 d repos = addDeclAliases nm d repos := by
  induction repos with
  | nil => intro d; rfl
  | cons decl rest ih =>
    intro d
    cases hr : jsMapGet nm decl.2 with
    | none =>
      have hr2 : jsMapGet nm2 decl.2 = none := by
        cases hx : jsMapGet nm2 decl.2 with
        | none => rfl
        | some t2 =>
          have := hg decl.2
          rw [hx, hr] at this
          cases this
      have e1 : addDeclAliases nm2 d (decl :: rest) =
          addDeclAliases nm2 d rest := by
        unfold addDeclAliases
        simp only [List.foldl_cons, hr2]
      have e2 : addDeclAliases nm d (decl :: rest) =
          addDeclAliases nm d rest := by
        unfold addDeclAliases
        simp only [List.foldl_cons, hr]
      rw [e1, e2]
      exact ih d
    | some t =>
      cases hx : jsMapGet nm2 decl.2 with
      | none =>
        have := hg decl.2
        rw [hx, hr] at this
        cases this
      | some t2 =>
        have hnames : t2.name = t.name := by
          have := hg decl.2
          rw [hx, hr] at this
          simpa using this
        have e1 : addDeclAliases nm2 d (decl :: rest) =
            addDeclAliases nm2 (addAlias d t2.name decl.1) rest := by
          unfold addDeclAliases
          simp only [List.foldl_cons, hx]
        have e2 : addDeclAliases nm d (decl :: rest) =
            addDeclAliases nm (addAlias d t.name decl.1) rest := by
          unfold addDeclAliases
          simp only [List.foldl_cons, hr]
        rw [e1, e2, hnames]
        exact ih _

theorem scanRepoFiles_congr (env : Env) (nm nm2 : List (String × RepoConfig))
    (hg : ∀ x, (jsMapGet nm2 x).map (·.name) = (jsMapGet nm x).map (·.name))
    (files : List String) :
    ∀ d, scanRepoFiles env nm2 d files = scanRepoFiles env nm d files := by
  induction files with
  | nil => intro d; rfl
  | cons fp rest ih =>
    intro d
    cases hx : env.extractDecls (env.readFileContent fp) with
    | error e =>
      have e1 : scanRepoFiles env nm2 d (fp :: rest) =
          scanRepoFiles env nm2 d rest := by
        unfold scanRepoFiles
        simp only [List.foldl_cons, hx]
      have e2 : scanRepoFiles env nm d (fp :: rest) =
          scanRepoFiles env nm d rest := by
        unfold scanRepoFiles
        simp only [List.foldl_cons, hx]
      rw [e1, e2]
      exact ih d
    | ok dres =>
      have e1 : scanRepoFiles env nm2 d (fp :: rest) =
          scanRepoFiles env nm2 (addDeclAliases nm2 d dres.repos) rest := by
        unfold scanRepoFiles
        simp only [List.foldl_cons, hx]
      have e2 : scanRepoFiles env nm d (fp :: rest) =
          scanRepoFiles env nm (addDeclAliases nm d dres.repos) rest := by
        unfold scanRepoFiles
        simp only [List.foldl_cons, hx]
      rw [e1, e2, addDeclAliases_congr nm nm2 hg dres.repos d]
      exact ih _

theorem scanAllPure_congr (env : Env) (nm nm2 : List (String × RepoConfig))
    (hg : ∀ x, (jsMapGet nm2 x).map (·.name) = (jsMapGet nm x).map (·.name))
    (cfgs : List RepoConfig) :
    ∀ d, scanAllPure env nm2 cfgs d = scanAllPure env nm cfgs d := by
  induction cfgs with
  | nil => intro d; rfl
  | cons r rest ih =>
    intro d
    unfold scanAllPure
    simp only [List.foldl_cons]
    rw [scanRepoFiles_congr env nm nm2 hg (filesOf env r.path) d]
    exact ih _

theorem scanAllPure_map_paths (env : Env) (nm : List (String × RepoConfig))
    (f : RepoConfig → RepoConfig) (hpath : ∀ r, (f r).path = r.path)
    (cfgs : List RepoConfig) (d : List (String × List String)) :
    scanAllPure env nm (cfgs.map f) d = scanAllPure env nm cfgs d := by
  unfold scanAllPure
  rw [List.foldl_map]
  simp only [hpath]

theorem scanAllPure_cons (env : Env) (nm : List (String × RepoConfig))
    (r : RepoConfig) (rest : List RepoConfig)
    (d : List (String × List String)) :
    scanAllPure env nm (r :: rest) d =
      scanAllPure env nm rest
        (scanRepoFiles env nm d (filesOf env r.path)) := by
  unfold scanAllPure
  simp only [List.foldl_cons]

theorem discover_scan_ok_iff (env : Env) (nm : List (String × RepoConfig)) :
    ∀ (l : List RepoConfig) (d : List (String × List String))
      (out : List (String × List String)),
      (l.foldlM (fun discovered repo => do
        let pipelineFiles ← env.findPipelineFiles repo.path
        return scanRepoFiles env nm discovered pipelineFiles) d) = .ok out ↔
      ((∀ r ∈ l, ∃ fs, env.findPipelineFiles r.path = .ok fs) ∧
        out = scanAllPure env nm l d) := by
  intro l
  induction l with
  | nil =>
    intro d out
    constructor
    · intro h
      have : d = out := by
        simpa [List.foldlM, pure, Except.pure] using h
      exact ⟨fun r hr => absurd hr (List.not_mem_nil r), this.symm⟩
    · rintro ⟨-, rfl⟩
      rfl
  | cons r rest ih =>
    intro d out
    cases hf : env.findPipelineFiles r.path with
    | error e =>
      constructor
      · intro h
        rw [List.foldlM_cons] at h
        simp [hf, bind, Except.bind] at h
      · rintro ⟨hall, -⟩
        obtain ⟨fs, hfs⟩ := hall r (List.mem_cons_self r rest)
        rw [hf] at hfs
        cases hfs
    | ok fs =>
      have hfiles : filesOf env r.path = fs := by
        unfold filesOf
        rw [hf]
      constructor
      · intro h
        rw [List.foldlM_cons] at h
        simp only [hf, bind, Except.bind, pure, Except.pure] at h
        obtain ⟨hall, hout⟩ := (ih (scanRepoFiles env nm d fs) out).mp h
        refine ⟨?_, ?_⟩
        · intro x hx
          rcases List.mem_cons.mp hx with h1 | h2
          · exact ⟨fs, h1 ▸ hf⟩
          · exact hall x h2
        · rw [hout, scanAllPure_cons, hfiles]
      · rintro ⟨hall, rfl⟩
        rw [List.foldlM_cons]
        simp only [hf, bind, Except.bind, pure, Except.pure]
        exact (ih (scanRepoFiles env nm d fs) _).mpr
          ⟨fun x hx => hall x (List.mem_cons_of_mem r hx),
            by rw [scanAllPure_cons, hfiles]⟩

theorem discover_eq (env : Env) (cfgs : List RepoConfig) :
    discoverRepositoryAliases env cfgs =
      (cfgs.foldlM (fun discovered repo => do
          let pipelineFiles ← env.findPipelineFiles repo.path
          return scanRepoFiles env (buildRepoNameMap cfgs) discovered
            pipelineFiles)
        (initialAliasMap cfgs)) >>= (fun discovered =>
          pure (cfgs.map (applyDiscovered discovered))) := rfl

theorem discover_ok_iff (env : Env) (cfgs out : List RepoConfig) :
    discoverRepositoryAliases env cfgs = .ok out ↔
    ((∀ r ∈ cfgs, ∃ fs, env.findPipelineFiles r.path = .ok fs) ∧
      out = cfgs.map (applyDiscovered
        (scanAllPure env (buildRepoNameMap cfgs) cfgs
          (initialAliasMap cfgs)))) := by
  rw [discover_eq]
  cases hm : cfgs.foldlM (fun discovered repo => do
      let pipelineFiles ← env.findPipelineFiles repo.path
      return scanRepoFiles env (buildRepoNameMap cfgs) discovered pipelineFiles)
      (initialAliasMap cfgs) with
  | error e =>
    simp only [bind, Except.bind]
    constructor
    · intro h
      cases h
    · rintro ⟨hall, rfl⟩
      have := (discover_scan_ok_iff env (buildRepoNameMap cfgs) cfgs
        (initialAliasMap cfgs)
        (scanAllPure env (buildRepoNameMap cfgs) cfgs
          (initialAliasMap cfgs))).mpr ⟨hall, rfl⟩
      rw [hm] at this
      cases this
  | ok discovered =>
    obtain ⟨hall, hout⟩ := (discover_scan_ok_iff env (buildRepoNameMap cfgs)
      cfgs (initialAliasMap cfgs) discovered).mp hm
    simp only [bind, Except.bind]
    constructor
    · intro h
      simp only [pure, Except.pure, Except.ok.injEq] at h
      exact ⟨hall, by rw [← h, hout]⟩
    · rintro ⟨-, rfl⟩
      simp only [pure, Except.pure, Except.ok.injEq]
      rw [hout]

theorem applyDiscovered_eq_of_get (d : List (String × List String))
    (repo : RepoConfig) (s : List String)
    (h : jsMapGet d repo.name = some s) :
    applyDiscovered d repo = { repo with aliases := s } := by
  unfold applyDiscovered
  rw [h]

/-! ## Claim theorems -/

/-- **C4.** The version reference parser is total (immediate from its type)
and classifies by the stated priority order: a `refs/tags/` prefix yields
kind `tag` with the remainder as version; otherwise a `refs/heads/` prefix
yields kind `branch` with the remainder as version; otherwise an exact
40-hex-character string yields kind `commit` with the version unchanged;
any other string yields kind `branch` with the version unchanged. -/
theorem C4_parseVersionReference_classification (ref rest : String) :
    (ref = "refs/tags/" ++ rest →
      parseVersionReference ref = ⟨rest, .tag⟩) ∧
    (jsStartsWith ref "refs/tags/" = false → ref = "refs/heads/" ++ rest →
      parseVersionReference ref = ⟨rest, .branch⟩) ∧
    (jsStartsWith ref "refs/tags/" = false →
      jsStartsWith ref "refs/heads/" = false → isCommitHash ref = true →
      parseVersionReference ref = ⟨ref, .commit⟩) ∧
    (jsStartsWith ref "refs/tags/" = false →
      jsStartsWith ref "refs/heads/" = false → isCommitHash ref = false →
      parseVersionReference ref = ⟨ref, .branch⟩) := by
  refine ⟨?_, ?_, ?_, ?_⟩
  · rintro rfl
    simp [parseVersionReference, jsStartsWith_append, jsDrop_tags]
  · intro h1 h2
    subst h2
    simp [parseVersionReference, h1, jsStartsWith_append, jsDrop_heads]
  · intro h1 h2 h3
    simp [parseVersionReference, h1, h2, h3]
  · intro h1 h2 h3
    simp [parseVersionReference, h1, h2, h3]

/-- Witness for C4 at the concrete input `"refs/tags/v1.0"`. -/
theorem C4_parseVersionReference_classification_witness :
    "refs/tags/v1.0" = "refs/tags/" ++ "v1.0" ∧
      parseVersionReference "refs/tags/v1.0" = ⟨"v1.0", .tag⟩ :=
  ⟨by decide,
    (C4_parseVersionReference_classification "refs/tags/v1.0" "v1.0").1 (by decide)⟩

/-- **C10.** Repository lookup gives exact-name matches precedence over
alias matches: when some configuration's name equals the queried
identifier, the first such configuration is returned even if another
configuration lists the identifier among its aliases; alias matching is
attempted only when no name matches; and the lookup returns nothing
exactly when neither a name nor an alias matches. -/
theorem C10_findRepoConfig_name_precedence (repoName : String)
    (configs : List RepoConfig) :
    ((∃ c ∈ configs, c.name = repoName) →
      findRepoConfig repoName configs =
        configs.find? (fun r => r.name == repoName)) ∧
    ((∀ c ∈ configs, c.name ≠ repoName) →
      findRepoConfig repoName configs =
        configs.find? (fun r => r.aliases.contains repoName)) ∧
    (findRepoConfig repoName configs = none ↔
      ∀ c ∈ configs, c.name ≠ repoName ∧ repoName ∉ c.aliases) := by
  refine ⟨?_, ?_, ?_⟩
  · rintro ⟨c, hc, hname⟩
    have hsome : (configs.find? (fun r => r.name == repoName)).isSome :=
      List.find?_isSome.mpr ⟨c, hc, by simp [hname]⟩
    unfold findRepoConfig
    cases h : configs.find? (fun r => r.name == repoName) with
    | none => rw [h] at hsome; simp at hsome
    | some cfg => rfl
  · intro hnone
    have h : configs.find? (fun r => r.name == repoName) = none :=
      List.find?_eq_none.mpr (fun c hc => by simpa using hnone c hc)
    unfold findRepoConfig
    rw [h]
  · unfold findRepoConfig
    constructor
    · intro h c hc
      cases hn : configs.find? (fun r => r.name == repoName) with
      | some cfg => rw [hn] at h; exact absurd h (by simp)
      | none =>
        rw [hn] at h
        refine ⟨by simpa using List.find?_eq_none.mp hn c hc, ?_⟩
        have := List.find?_eq_none.mp h c hc
        simpa using this
    · intro h
      have h1 : configs.find? (fun r => r.name == repoName) = none :=
        List.find?_eq_none.mpr (fun c hc => by simpa using (h c hc).1)
      have h2 : configs.find? (fun r => r.aliases.contains repoName) = none :=
        List.find?_eq_none.mpr (fun c hc => by simpa using (h c hc).2)
      rw [h1, h2]

/-- Witness for C10: name match takes precedence although another
configuration lists the identifier as an alias. -/
theorem C10_findRepoConfig_name_precedence_witness :
    (∃ c ∈ [RepoConfig.mk "other" "/o" ["shared"] none false,
            RepoConfig.mk "shared" "/s" [] none false], c.name = "shared") ∧
    findRepoConfig "shared"
        [RepoConfig.mk "other" "/o" ["shared"] none false,
         RepoConfig.mk "shared" "/s" [] none false] =
      some (RepoConfig.mk "shared" "/s" [] none false) := by
  refine ⟨⟨RepoConfig.mk "shared" "/s" [] none false, by decide, rfl⟩, ?_⟩
  rw [(C10_findRepoConfig_name_precedence "shared"
    [RepoConfig.mk "other" "/o" ["shared"] none false,
     RepoConfig.mk "shared" "/s" [] none false]).1
    ⟨RepoConfig.mk "shared" "/s" [] none false, by decide, rfl⟩]
  decide

/-- **C3.** A reference whose target repository resolves to a
configuration flagged `skipValidation` is appended to `validReferences`
(outcome `VALID`) unconditionally; the result does not mention the
environment, so no filesystem or version-control query can influence it. -/
theorem C3_skip_repo_always_valid (env : Env) (reference : PipelineReference)
    (repoConfigs : List RepoConfig)
    (validReferences brokenReferences versionIssues : List PipelineReference)
    (cfg : RepoConfig)
    (ht : truthy reference.targetRepo = true)
    (hf : findRepoConfig (reference.targetRepo.getD "") repoConfigs = some cfg)
    (hs : cfg.skipValidation = true) :
    validateReference env reference repoConfigs validReferences
        brokenReferences versionIssues =
      (.VALID, validReferences ++ [reference], brokenReferences,
        versionIssues) := by
  unfold validateReference attemptReference validateExternalReference
  simp [ht, hf, hs]

/-- Witness for C3 at a concrete reference and a skip-flagged target,
in an environment whose every filesystem and git query answers `false`. -/
theorem C3_skip_repo_always_valid_witness :
    truthy (PipelineReference.mk "s.yml" "t.yml" (some "R") none none 1 "c").targetRepo = true ∧
    findRepoConfig "R" [RepoConfig.mk "R" "/r" [] none true] =
      some (RepoConfig.mk "R" "/r" [] none true) ∧
    validateReference pureEnv
        (PipelineReference.mk "s.yml" "t.yml" (some "R") none none 1 "c")
        [RepoConfig.mk "R" "/r" [] none true] [] [] [] =
      (.VALID, [PipelineReference.mk "s.yml" "t.yml" (some "R") none none 1 "c"],
        [], []) :=
  ⟨by decide, by decide,
    C3_skip_repo_always_valid pureEnv
      (PipelineReference.mk "s.yml" "t.yml" (some "R") none none 1 "c")
      [RepoConfig.mk "R" "/r" [] none true] [] [] []
      (RepoConfig.mk "R" "/r" [] none true) (by decide) (by decide) (by decide)⟩

/-- **C2, counterexample.** The claim's version rule fails on a chosen
version that starts with `refs/`: with the target configuration pinned to
`refs/heads/main` and no version on the reference, the chosen version has
no explicit kind, so the claim prescribes validating the string
`refs/heads/main` with shape-inferred kind `branch`; the code instead
normalizes it through `parseVersionReference` and validates `main` with
kind `branch`. In an environment where exactly the string
`refs/heads/main` verifies, the code reports `INVALID_VERSION` while the
claim's rule reports `VALID`. -/
theorem C2_version_rule_counterexample :
    (validateExternalReference envRefsSensitive refPlain "R" [cfgPinnedRefs]
        [] [] []).map (·.1) = .ok .INVALID_VERSION ∧
    (validateExternalReference_claim envRefsSensitive refPlain "R"
        [cfgPinnedRefs] [] [] []).map (·.1) = .ok .VALID := by
  decide

/-- **C2, amended.** Provided the chosen version (reference's own version
first, else the target configuration's pinned ref) does not start with
`refs/` — such versions are instead normalized through the version
reference parser — external validation behaves exactly as the claim
states: the version is chosen with the stated precedence and, whenever it
has no explicit kind, its kind is inferred from its shape (exact 40-hex →
commit, leading `v` followed by a digit → tag, otherwise branch). -/
theorem C2_version_precedence_amended (env : Env)
    (reference : PipelineReference) (targetRepo : String)
    (repoConfigs : List RepoConfig)
    (validReferences brokenReferences versionIssues : List PipelineReference)
    (h : noRefsPrefixChoice reference targetRepo repoConfigs = true) :
    validateExternalReference env reference targetRepo repoConfigs
        validReferences brokenReferences versionIssues =
      validateExternalReference_claim env reference targetRepo repoConfigs
        validReferences brokenReferences versionIssues := by
  unfold noRefsPrefixChoice at h
  unfold validateExternalReference validateExternalReference_claim
  cases hf : findRepoConfig targetRepo repoConfigs with
  | none => rfl
  | some cfg =>
    rw [hf] at h
    by_cases hs : cfg.skipValidation = true
    · simp [hs]
    · rw [Bool.not_eq_true] at hs
      simp only [hs, Bool.false_or] at h
      cases hv : chosenVersion reference cfg with
      | none => simp [hs, hv]
      | some v =>
        simp only [hv, Bool.not_eq_true'] at h
        simp [hs, hv, h]

/-- Witness for the amended C2 at a target pinned to the plain ref
`main`. -/
theorem C2_version_precedence_amended_witness :
    noRefsPrefixChoice refPlain "R" [cfgPinnedPlain] = true ∧
    validateExternalReference pureEnv refPlain "R" [cfgPinnedPlain]
        [] [] [] =
      validateExternalReference_claim pureEnv refPlain "R" [cfgPinnedPlain]
        [] [] [] :=
  ⟨by decide,
    C2_version_precedence_amended pureEnv refPlain "R" [cfgPinnedPlain]
      [] [] [] (by decide)⟩

/-- **C1** (demonstrating a code bug): the scanning phases do **not**
respect `skipValidation`. With two configurations whose second repository
is flagged `skipValidation`, and two filesystem states that differ only in
the contents beneath the skip-flagged repository's path `/r2`
(`envSkipNonEmpty` holds one pipeline file with a dangling reference
there; `envSkipEmpty` holds nothing; all data outside `/r2` is
identical), `validatePipelines` returns different results; reference
collection extracts the skip-flagged repository's reference; and a
file-discovery failure limited to the skip-flagged repository (which
could not occur if that repository were never scanned) propagates out of
the entry point via alias discovery. The repository's own test
(*References Module › collectAllReferences › should skip repositories
with skipValidation flag*) asserts the opposite of what the code does. -/
theorem C1_skip_repo_is_scanned :
    (validatePipelines envSkipNonEmpty (.inr skipCfgs)).map (·.isValid) =
      .ok false ∧
    (validatePipelines envSkipEmpty (.inr skipCfgs)).map (·.isValid) =
      .ok true ∧
    collectAllReferences envSkipNonEmpty skipCfgs =
      [{ source := "/r2/p.yml", target := "missing.yml", lineNumber := 3,
         context := "c" }] ∧
    validatePipelines envSkipCrash (.inr skipCfgs) = .error "crash" := by
  decide

/-- **C5.** Per-reference error containment: (1) any exception raised
while validating a single reference is caught at the per-reference
boundary and converted into a `BROKEN_PATH` outcome, appending the
reference to `brokenReferences` with its target rewritten to embed the
error message, leaving the other buckets untouched; (2) `validateReference`
is total and always contributes exactly one outcome, so the run continues
with the next reference; (3) whenever the (pre-validation) alias-discovery
phase succeeds, the public entry point returns a `ValidationResult` — no
exception from reference validation escapes it. -/
theorem C5_per_reference_error_containment :
    (∀ (env : Env) (reference : PipelineReference)
        (repoConfigs : List RepoConfig)
        (v b vi : List PipelineReference) (e : String),
      attemptReference env reference repoConfigs v b vi = .error e →
      validateReference env reference repoConfigs v b vi =
        (.BROKEN_PATH, v,
          b ++ [{ reference with
            target := "Error validating: " ++ reference.target ++ " - " ++ e }],
          vi)) ∧
    (∀ (env : Env) (reference : PipelineReference)
        (repoConfigs : List RepoConfig) (v b vi : List PipelineReference),
      (validateReference env reference repoConfigs v b vi).2.1.length +
        (validateReference env reference repoConfigs v b vi).2.2.1.length +
        (validateReference env reference repoConfigs v b vi).2.2.2.length =
        v.length + b.length + vi.length + 1) ∧
    (∀ (env : Env) (repos : String ⊕ List RepoConfig)
        (cfgs : List RepoConfig),
      discoverRepositoryAliases env (normalizeRepos repos) = .ok cfgs →
      ∃ res, validatePipelines env repos = .ok res) := by
  refine ⟨?_, ?_, ?_⟩
  · intro env reference repoConfigs v b vi e he
    unfold validateReference
    rw [he]
  · intro env reference repoConfigs v b vi
    exact validateReference_count env reference repoConfigs v b vi
  · intro env repos cfgs hdisc
    unfold validatePipelines
    simp only [bind, Except.bind]
    rw [hdisc]
    exact ⟨_, rfl⟩

/-- Witness for C5: a thrown filesystem check is converted into a
`BROKEN_PATH` entry carrying the message, a reference always lands in
exactly one bucket, and the entry point returns a result. -/
theorem C5_per_reference_error_containment_witness :
    validateReference envThrowingFs refLocal [] [] [] [] =
      (.BROKEN_PATH, [],
        [{ refLocal with target := "Error validating: x.yml - boom" }], []) ∧
    (validateReference pureEnv refLocal [] [] [] []).2.1.length +
      (validateReference pureEnv refLocal [] [] [] []).2.2.1.length +
      (validateReference pureEnv refLocal [] [] [] []).2.2.2.length = 1 ∧
    ∃ res, validatePipelines pureEnv (.inr []) = .ok res :=
  ⟨C5_per_reference_error_containment.1 envThrowingFs refLocal [] [] [] []
      "boom" (by decide),
    C5_per_reference_error_containment.2.1 pureEnv refLocal [] [] [] [],
    C5_per_reference_error_containment.2.2 pureEnv (.inr []) [] (by decide)⟩

/-- **C6.** For every run of the entry point, `isValid` holds iff both
failure buckets are empty, and the three buckets together hold exactly one
entry per collected reference. -/
theorem C6_isValid_iff_empty_buckets_and_partition (env : Env)
    (repos : String ⊕ List RepoConfig) (cfgs : List RepoConfig)
    (res : ValidationResult)
    (hdisc : discoverRepositoryAliases env (normalizeRepos repos) = .ok cfgs)
    (hres : validatePipelines env repos = .ok res) :
    (res.isValid = true ↔
      (res.brokenReferences = [] ∧ res.versionIssues = [])) ∧
    res.validReferences.length + res.brokenReferences.length +
        res.versionIssues.length =
      (collectAllReferences env cfgs).length := by
  unfold validatePipelines at hres
  simp only [bind, Except.bind] at hres
  rw [hdisc] at hres
  simp only [pure, Except.pure, Except.ok.injEq] at hres
  subst hres
  constructor
  · simp [Bool.and_eq_true, List.length_eq_zero]
  · have h := foldl_processReference_count env cfgs
      (collectAllReferences env cfgs) ([], [], [])
    simpa using h

/-- Witness for C6 on a run that produces one broken reference. -/
theorem C6_isValid_iff_empty_buckets_and_partition_witness :
    ∃ res, validatePipelines envSkipNonEmpty (.inr skipCfgs) = .ok res ∧
      ((res.isValid = true ↔
        (res.brokenReferences = [] ∧ res.versionIssues = [])) ∧
      res.validReferences.length + res.brokenReferences.length +
          res.versionIssues.length =
        (collectAllReferences envSkipNonEmpty skipCfgs).length) := by
  refine ⟨ValidationResult.mk false
    [PipelineReference.mk "/r2/p.yml" "/r2/p.yml|missing.yml" none none none
      3 "c"] [] [], ?_, ?_⟩
  · decide
  · exact C6_isValid_iff_empty_buckets_and_partition envSkipNonEmpty
      (.inr skipCfgs) skipCfgs _ (by decide) (by decide)

/-- **C8.** Deduplication under the key (source, line, target): whenever a
local-style match and an external-style match produce the same key, the
deduplicated list contains exactly one reference with that key, and that
reference comes from the external matches (external matches are applied
after local matches and overwrite them). -/
theorem C8_dedup_key_external_wins (env : Env) (fp content k : String)
    (_hl : ∃ l ∈ env.localMatches fp content, refKey l = k)
    (he : ∃ e ∈ env.externalMatches fp content, refKey e = k) :
    ((baseReferences env fp content).filter
      (fun r => refKey r == k)).length = 1 ∧
    ∀ r ∈ baseReferences env fp content, refKey r = k →
      r ∈ env.externalMatches fp content := by
  rw [baseReferences_eq]
  set m0 := (env.localMatches fp content).foldl
    (fun m ref =>
      if jsMapHas m (refKey ref) then m else jsMapSet m (refKey ref) ref)
    [] with hm0
  set m1 := (env.externalMatches fp content).foldl
    (fun m ref => jsMapSet m (refKey ref) ref) m0 with hm1
  have hco : ∀ p ∈ m1, refKey p.2 = p.1 :=
    coherent_extFold _ m0
      (coherent_localFold _ [] (by intro p hp; cases hp))
  have hnd : (m1.map Prod.fst).Nodup :=
    keysNodup_extFold _ m0 (keysNodup_localFold _ [] (by simp))
  obtain ⟨e, hget, heE, hek⟩ := extFold_get_mem
    (env.externalMatches fp content) m0 k he
  constructor
  · rw [filter_values_eq m1 k hco, List.length_map]
    exact filter_keys_length_one m1 k hnd (by rw [← hm1] at hget; rw [hget]; rfl)
  · intro r hr hk
    obtain ⟨p, hp, hpe⟩ := List.mem_map.mp hr
    have hp1 : p.1 = k := by rw [← hco p hp, hpe, hk]
    have hpg := jsMapGet_of_mem_nodup m1 hnd p hp
    rw [hp1] at hpg
    rw [← hm1] at hget
    rw [hget] at hpg
    have : e = p.2 := by injection hpg
    rw [← hpe, ← this]
    exact heE

/-- Witness for C8: a local and an external match of the same key
deduplicate to the single external interpretation. -/
theorem C8_dedup_key_external_wins_witness :
    (∃ l ∈ envDup.localMatches "f.yml" "c", refKey l = "f.yml:2:t.yml") ∧
    (∃ e ∈ envDup.externalMatches "f.yml" "c", refKey e = "f.yml:2:t.yml") ∧
    ((baseReferences envDup "f.yml" "c").filter
      (fun r => refKey r == "f.yml:2:t.yml")).length = 1 ∧
    ∀ r ∈ baseReferences envDup "f.yml" "c", refKey r = "f.yml:2:t.yml" →
      r ∈ envDup.externalMatches "f.yml" "c" :=
  ⟨by decide, by decide,
    (C8_dedup_key_external_wins envDup "f.yml" "c" "f.yml:2:t.yml"
      (by decide) (by decide)).1,
    (C8_dedup_key_external_wins envDup "f.yml" "c" "f.yml:2:t.yml"
      (by decide) (by decide)).2⟩

/-- **C7.** Back-fill of declaration versions: for a declaration binding
alias `a` with a (non-empty) version, every collected reference targeting
`a` without a version of its own appears in the extraction result updated
with the declaration's version and kind, and every reference targeting `a`
in the result carries a version. Both conclusions are quantified over
*every* position of the reference in the collected list and *every*
position of the declaration in the declaration record, so the back-fill
does not depend on whether the declaration textually precedes or follows
the reference in the file. -/
theorem C7_declaration_version_backfill (env : Env) (fp content : String)
    (dr : DeclResult) (a n : String) (vinfo : VersionInfo)
    (hdr : env.extractDecls content = .ok dr)
    (hmem : (a, n) ∈ dr.repos)
    (hver : jsMapGet dr.repoVersions a = some vinfo)
    (hne : vinfo.version ≠ "") :
    (∀ r ∈ baseReferences env fp content,
      r.targetRepo = some a → truthy r.targetVersion = false →
      withVersion r vinfo ∈ extractReferences env fp content) ∧
    (∀ r ∈ extractReferences env fp content,
      r.targetRepo = some a → truthy r.targetVersion = true) := by
  have hex : extractReferences env fp content =
      dr.repos.foldl (applyRepositoryDeclaration fp dr.repoVersions)
        (baseReferences env fp content) := by
    unfold extractReferences
    rw [hdr]
  constructor
  · intro r hr hrepo hempty
    rw [hex]
    exact backfill_update_mem fp dr.repoVersions a n vinfo r hver hne hrepo
      hempty dr.repos _ hmem hr
  · intro r hr hrepo
    rw [hex] at hr
    exact backfill_establishes_alias_truthy fp dr.repoVersions a n vinfo hver
      hne dr.repos _ hmem r hr hrepo

/-- Witness for C7 on a concrete file whose declaration pins alias `A` to
tag `v2.0`. -/
theorem C7_declaration_version_backfill_witness :
    envDecl.extractDecls "c" =
      .ok ⟨[("A", "org/tmpl")], [("A", ⟨"v2.0", VersionType.tag⟩)]⟩ ∧
    ("A", "org/tmpl") ∈ [(("A" : String), ("org/tmpl" : String))] ∧
    jsMapGet [(("A" : String), VersionInfo.mk "v2.0" VersionType.tag)] "A" =
      some ⟨"v2.0", VersionType.tag⟩ ∧
    ("v2.0" : String) ≠ "" ∧
    withVersion refExt ⟨"v2.0", VersionType.tag⟩ ∈
      extractReferences envDecl "f.yml" "c" ∧
    ∀ r ∈ extractReferences envDecl "f.yml" "c",
      r.targetRepo = some "A" → truthy r.targetVersion = true :=
  ⟨by decide, by decide, by decide, by decide,
    (C7_declaration_version_backfill envDecl "f.yml" "c"
      ⟨[("A", "org/tmpl")], [("A", ⟨"v2.0", VersionType.tag⟩)]⟩ "A" "org/tmpl"
      ⟨"v2.0", VersionType.tag⟩ (by decide) (by decide) (by decide)
      (by decide)).1 refExt (by decide) (by decide) (by decide),
    (C7_declaration_version_backfill envDecl "f.yml" "c"
      ⟨[("A", "org/tmpl")], [("A", ⟨"v2.0", VersionType.tag⟩)]⟩ "A" "org/tmpl"
      ⟨"v2.0", VersionType.tag⟩ (by decide) (by decide) (by decide)
      (by decide)).2⟩

/-- **C9.** Alias discovery is idempotent: a successful second run of
`discoverRepositoryAliases` on the output of a successful first run (in
the same filesystem state) returns that output unchanged — in particular
the alias sets are not enriched any further. -/
theorem C9_alias_discovery_idempotent (env : Env)
    (cfgs c₁ c₂ : List RepoConfig)
    (h1 : discoverRepositoryAliases env cfgs = .ok c₁)
    (h2 : discoverRepositoryAliases env c₁ = .ok c₂) :
    c₂ = c₁ := by
  obtain ⟨hok1, hc1⟩ := (discover_ok_iff env cfgs c₁).mp h1
  obtain ⟨hok2, hc2⟩ := (discover_ok_iff env c₁ c₂).mp h2
  clear h1 h2 hok1 hok2
  set nm := buildRepoNameMap cfgs with hnm
  set init1 := initialAliasMap cfgs with hinit1
  set final1 := scanAllPure env nm cfgs init1 with hfinal1
  have hname : ∀ r, (applyDiscovered final1 r).name = r.name :=
    fun r => applyDiscovered_name final1 r
  have hpath : ∀ r, (applyDiscovered final1 r).path = r.path :=
    fun r => applyDiscovered_path final1 r
  have hg : ∀ x, (jsMapGet (buildRepoNameMap c₁) x).map (·.name) =
      (jsMapGet nm x).map (·.name) := by
    intro x
    rw [hc1, buildRepoNameMap_map (applyDiscovered final1) hname cfgs,
      jsMapGet_map_sec, hnm]
    cases jsMapGet (buildRepoNameMap cfgs) x with
    | none => rfl
    | some t => simp [hname t]
  have hscan2 : ∀ d, scanAllPure env (buildRepoNameMap c₁) c₁ d =
      scanAllPure env nm cfgs d := by
    intro d
    rw [scanAllPure_congr env nm (buildRepoNameMap c₁) hg c₁ d]
    conv_lhs => rw [hc1]
    exact scanAllPure_map_paths env nm (applyDiscovered final1) hpath cfgs d
  have hfin_dom : ∀ t, t ∈ cfgs → ∃ s, jsMapGet final1 t.name = some s := by
    intro t ht
    have h0 : (jsMapGet init1 t.name).isSome = true := by
      rw [hinit1]
      unfold initialAliasMap
      exact initFold_domain cfgs t ht []
    have h1s : (jsMapGet final1 t.name).isSome = true := by
      rw [hfinal1]
      exact scanAllPure_isSome env nm cfgs t.name init1 h0
    exact Option.isSome_iff_exists.mp h1s
  have hvalnodup : ∀ p ∈ final1, p.2.Nodup := by
    rw [hfinal1]
    refine scanAllPure_valuesNodup env nm cfgs init1 ?_
    rw [hinit1]
    exact initialAliasMap_valuesNodup cfgs
  have huni : ∀ n s, jsMapGet final1 n = some s →
      ∀ r' ∈ c₁, r'.name = n → r'.aliases = s := by
    intro n s hs r' hr' hn
    rw [hc1] at hr'
    obtain ⟨r0, hr0, rfl⟩ := List.mem_map.mp hr'
    have hr0n : r0.name = n := by rw [← hname r0]; exact hn
    exact applyDiscovered_aliases final1 r0 s (by rw [hr0n]; exact hs)
  have hinit2 : ∀ n s, (∃ t ∈ cfgs, t.name = n) → jsMapGet final1 n = some s →
      jsMapGet (initialAliasMap c₁) n = some (setOfList s) := by
    intro n s hex hs
    have hexc : ∃ r' ∈ c₁, r'.name = n := by
      obtain ⟨t, ht, htn⟩ := hex
      exact ⟨applyDiscovered final1 t,
        by rw [hc1]; exact List.mem_map.mpr ⟨t, ht, rfl⟩,
        by rw [hname t]; exact htn⟩
    unfold initialAliasMap
    exact initFold_get_uniform c₁ n s
      (fun r' hr' hn => huni n s hs r' hr' hn) hexc []
  have hnoop : scanAllPure env nm cfgs (initialAliasMap c₁) =
      initialAliasMap c₁ := by
    refine scanAllPure_noop env nm cfgs (initialAliasMap c₁)
      (initialAliasMap_keysNodup c₁) ?_
    intro repo hrepo fp hfp dres hx decl hdecl t hres
    have htc : t ∈ cfgs :=
      buildRepoNameMap_values cfgs decl.2 t (hnm ▸ hres)
    obtain ⟨s, hs⟩ := hfin_dom t htc
    have hal : decl.1 ∈ (jsMapGet final1 t.name).getD [] := by
      rw [hfinal1]
      exact scanAllPure_present env nm cfgs repo fp dres decl t hrepo hfp hx
        hdecl hres init1
    rw [hs] at hal
    simp only [Option.getD_some] at hal
    rw [hinit2 t.name s ⟨t, htc, rfl⟩ hs]
    simp only [Option.getD_some]
    exact (mem_setOfList s decl.1).mpr hal
  rw [hc2, hscan2 (initialAliasMap c₁), hnoop]
  have hpt : ∀ r' ∈ c₁, applyDiscovered (initialAliasMap c₁) r' = r' := by
    intro r' hr'
    have hr'' := hr'
    rw [hc1] at hr''
    obtain ⟨r0, hr0, rfl⟩ := List.mem_map.mp hr''
    obtain ⟨s, hs⟩ := hfin_dom r0 hr0
    have hget2 : jsMapGet (initialAliasMap c₁)
        (applyDiscovered final1 r0).name = some (setOfList s) := by
      rw [hname r0]
      exact hinit2 r0.name s ⟨r0, hr0, rfl⟩ hs
    have hsnodup : s.Nodup := by
      obtain ⟨p, hp, hpe⟩ := get_some_mem_value final1 r0.name s hs
      exact hpe ▸ hvalnodup p hp
    have halias : (applyDiscovered final1 r0).aliases = s :=
      applyDiscovered_aliases final1 r0 s hs
    rw [applyDiscovered_eq_of_get (initialAliasMap c₁)
        (applyDiscovered final1 r0) (setOfList s) hget2,
      setOfList_eq_of_nodup s hsnodup, ← halias]
  calc c₁.map (applyDiscovered (initialAliasMap c₁))
      = c₁.map id := List.map_congr_left (fun r' hr' => hpt r' hr')
    _ = c₁ := List.map_id c₁

/-- Witness for C9: a run that discovers the alias `tmpl`, re-run on its
own output. -/
theorem C9_alias_discovery_idempotent_witness :
    discoverRepositoryAliases env9 cfgs9 = .ok c9out ∧
    discoverRepositoryAliases env9 c9out = .ok c9out ∧
    c9out = c9out :=
  ⟨by decide, by decide,
    C9_alias_discovery_idempotent env9 cfgs9 c9out c9out
      (by decide) (by decide)⟩

end AzureRefcheck
